import Mathlib

/-!
Verification development for the `jupyter/extension-builder` repository.

The development shallowly embeds the two core components of the repository:

* the runtime semver-resolving module loader (`src/loader.ts`, and the later
  copy of the same class shipped as an unnamed source file), and
* the version-aware chunk rewriter of the WebPack plugin (`src/plugin.ts`).

JavaScript objects used as string-keyed tables are modelled as association
lists; object identity of `exports` objects is modelled by allocation of
fresh numeric ids from a counter; thrown JS exceptions are modelled by an
`Except String` result carrying the literal message built by the source,
with the mutated state threaded through even on the error path (a thrown
JS exception does not roll back prior mutations).
-/

namespace ExtensionBuilder

/-! ## Association-list helpers (JS object property access) -/

/-- `obj[key]` property read: first binding wins (our tables bind each key
at most once, mirroring a JS object). -/
def lookupA {κ α : Type} [DecidableEq κ] : List (κ × α) → κ → Option α
  | [], _ => none
  | (k, v) :: l, key => if k = key then some v else lookupA l key

/-- `obj[key] = v` property write: overwrite the binding when present,
insert a fresh binding otherwise. -/
def setA {κ α : Type} [DecidableEq κ] (l : List (κ × α)) (key : κ) (v : α) :
    List (κ × α) :=
  if (lookupA l key).isSome then
    l.map (fun p => if p.1 = key then (key, v) else p)
  else
    (key, v) :: l

/-! ## Path codec (`_parsePath`, loader.ts lines 186-202)

The source matches the regex `/(^(?:@[^/]+\/)??[^/@]+?)@([^/]+?)(\/.*)?$/`.
The functions below embed that regex, choice point by choice point:
the lazy-optional scope prefix `(?:@[^/]+\/)??` tries the empty
alternative first; the lazy `[^/@]+?` (name) and `[^/]+?` (version)
quantifiers try the shortest extension first and grow on failure; `.` in
`(\/.*)?` matches every character except a JS line terminator; `^`/`$`
anchor the match to the whole string. -/

/-- A character the JS regex metacharacter `.` matches (anything except a
line terminator). -/
def jsDot (c : Char) : Bool :=
  c ≠ '\n' && c ≠ '\r' && c ≠ Char.ofNat 0x2028 && c ≠ Char.ofNat 0x2029

/-- The tail pattern `(\/.*)?$`: either the end of the string, or a `/`
followed by arbitrary non-line-terminator characters up to the end. -/
def matchSub : List Char → Bool
  | [] => true
  | c :: rest => c = '/' && rest.all jsDot

/-- The pattern `([^/]+?)(\/.*)?$` for the version group: the lazy `+?`
stops as early as the remainder matches `(\/.*)?$`.  Returns the version
characters and the subpath group (`none` when the optional group is
absent, mirroring `match[3] === undefined`). -/
def matchVerFrom : List Char → Option (List Char × Option (List Char))
  | [] => none
  | c :: rest =>
    if c = '/' then none
    else if matchSub rest then
      some ([c], if rest.isEmpty then none else some rest)
    else
      match matchVerFrom rest with
      | some (v, s) => some (c :: v, s)
      | none => none

/-- The pattern `([^/@]+?)@([^/]+?)(\/.*)?$` for the bare name: the lazy
name stops at the first position where a literal `@` follows and the rest
of the pattern succeeds; a name character may be neither `/` nor `@`. -/
def matchNameFrom : List Char → Option (List Char × List Char × Option (List Char))
  | [] => none
  | [_] => none
  | c :: d :: rest =>
    if c = '/' ∨ c = '@' then none
    else if d = '@' then
      match matchVerFrom rest with
      | some (v, s) => some ([c], v, s)
      | none => none
    else
      match matchNameFrom (d :: rest) with
      | some (n, v, s) => some (c :: n, v, s)
      | none => none

/-- The parsed record `Private.IPathInfo`: `package`/`version`/`module`
are the regex's three capture groups (`module` is `none` when group 3 is
absent, i.e. the JS value `undefined`). -/
structure PathInfo where
  package : String
  version : String
  module : Option String
deriving DecidableEq, Repr

/-- `_parsePath` (loader.ts lines 186-202) without its observationally
pure memoisation cache.  The lazy-optional scope prefix tries the empty
alternative first; when the bare-name alternative fails the greedy
`@[^/]+\/` prefix consumes the `@`, the maximal run of non-`/` characters
and the following `/`. -/
def parsePath (s : String) : Option PathInfo :=
  match matchNameFrom s.toList with
  | some (n, v, sub) => some ⟨⟨n⟩, ⟨v⟩, sub.map (⟨·⟩)⟩
  | none =>
    match s.toList with
    | '@' :: rest =>
      let sc := rest.takeWhile (· ≠ '/')
      if sc.isEmpty then none
      else if rest.drop sc.length = [] then none
      else
        match matchNameFrom (rest.drop (sc.length + 1)) with
        | some (n, v, sub) =>
          some ⟨⟨'@' :: sc ++ '/' :: n⟩, ⟨v⟩, sub.map (⟨·⟩)⟩
        | none => none
    | _ => none

/-! ## Semver model

Modelled from the spec: the loader imports `maxSatisfying` from the
external `semver` npm package, which is not part of this repository.
Following the spec's resolution rules ("feed their versions to a semver
selector with the requested range and choose the maximally satisfying
version"), the model covers plain `major.minor.patch` versions and the
exact, caret (`^`) and tilde (`~`) range forms the rewriter emits;
`maxSatisfying` returns the greatest version satisfying the range, or
`none` (JS `null`) when no version satisfies. -/

/-- A plain semver version. -/
structure SemVer where
  major : Nat
  minor : Nat
  patch : Nat
deriving DecidableEq, Repr

/-- Split a character list at every `.`. -/
def splitOnDot : List Char → List (List Char)
  | [] => [[]]
  | c :: rest =>
    if c = '.' then [] :: splitOnDot rest
    else
      match splitOnDot rest with
      | [] => [[c]]
      | g :: gs => (c :: g) :: gs

/-- A non-empty digit run as a number. -/
def digitsToNat : List Char → Option Nat
  | [] => none
  | cs =>
    if cs.all Char.isDigit then
      some (cs.foldl (fun n c => n * 10 + (c.toNat - '0'.toNat)) 0)
    else none

/-- Parse `major.minor.patch` with numeric components. -/
def parseSemVerL (cs : List Char) : Option SemVer :=
  match splitOnDot cs with
  | [a, b, c] =>
    match digitsToNat a, digitsToNat b, digitsToNat c with
    | some x, some y, some z => some ⟨x, y, z⟩
    | _, _, _ => none
  | _ => none

/-- Parse `major.minor.patch` with numeric components. -/
def parseSemVer (s : String) : Option SemVer :=
  parseSemVerL s.toList

/-- Strict semver precedence (lexicographic on major, minor, patch). -/
def svLt (a b : SemVer) : Bool :=
  a.major < b.major ∨
    (a.major = b.major ∧ (a.minor < b.minor ∨
      (a.minor = b.minor ∧ a.patch < b.patch)))

/-- Non-strict semver precedence. -/
def svLe (a b : SemVer) : Bool :=
  svLt a b || a = b

/-- The range forms the rewriter emits: exact, caret and tilde. -/
inductive RangeKind where
  | exact
  | caret
  | tilde
deriving DecidableEq, Repr

/-- Parse an exact/caret/tilde range string. -/
def parseRange (s : String) : Option (RangeKind × SemVer) :=
  match s.toList with
  | '^' :: rest => (parseSemVerL rest).map (RangeKind.caret, ·)
  | '~' :: rest => (parseSemVerL rest).map (RangeKind.tilde, ·)
  | cs => (parseSemVerL cs).map (RangeKind.exact, ·)

/-- Does a parsed version satisfy a parsed range?  `^x.y.z` permits
changes that do not modify the left-most non-zero component; `~x.y.z`
permits patch-level changes. -/
def satisfiesK : RangeKind → SemVer → SemVer → Bool
  | .exact, base, v => v = base
  | .caret, base, v =>
    svLe base v &&
      (if base.major ≠ 0 then v.major = base.major
       else if base.minor ≠ 0 then v.major = 0 && v.minor = base.minor
       else v = base)
  | .tilde, base, v =>
    svLe base v && v.major = base.major && v.minor = base.minor

/-- `semver.satisfies` on strings; an unparsable version or range
satisfies nothing. -/
def satisfies (v r : String) : Bool :=
  match parseSemVer v, parseRange r with
  | some sv, some (k, base) => satisfiesK k base sv
  | _, _ => false

/-- Is `v` a greater version string than `b` (both must parse)? -/
def svLtStr (b v : String) : Bool :=
  match parseSemVer b, parseSemVer v with
  | some x, some y => svLt x y
  | _, _ => false

/-- One step of the `maxSatisfying` scan: keep the greater of the
running best and the next version when the latter satisfies the range. -/
def maxSatStep (range : String) (acc : Option String) (v : String) :
    Option String :=
  if satisfies v range then
    match acc with
    | none => some v
    | some b => if svLtStr b v then some v else acc
  else acc

/-- `semver.maxSatisfying(versions, range)`: the greatest version in the
list satisfying the range, `none` when no version satisfies. -/
def maxSatisfying (versions : List String) (range : String) : Option String :=
  versions.foldl (maxSatStep range) none

/-! ## The runtime loader state machine

The `ModuleLoader` class (loader.ts / the unnamed later copy of it).
Factories passed to `define` are modelled as small command programs: a
factory body may assign a property of its own `exports` object, require
another module for effect, or require another module and read one
property of the returned exports object (the observation is appended to
a trace so the claims can speak about it).  Waiter callbacks passed to
`ensureBundle` are opaque: they are named by numeric ids and their
invocations are appended to an event log. -/

/-- A factory body command (`DefineCallback` bodies). -/
inductive FCmd where
  /-- `exports[key] = val` on the factory's own exports object. -/
  | setExport (key val : String)
  /-- `require(path)` for effect. -/
  | requireMod (path : String)
  /-- `require(path)[key]`: the id of the exports object returned by the
  inner require and the value read (or `none` for JS `undefined`) are
  appended to the observation trace. -/
  | readFrom (path key : String)
deriving DecidableEq, Repr

/-- `Private.IModule`: the per-module record created by `require`. -/
structure ModuleRec where
  exportsId : Nat
  loaded : Bool
deriving DecidableEq, Repr

/-- `Private.IBundle`: the per-url bundle record created by `_getBundle`. -/
structure BundleRec where
  loaded : Bool
  callbacks : List Nat
  promiseId : Nat
deriving DecidableEq, Repr

/-- The state of a single-settlement JS promise. -/
inductive PromiseSt where
  | pending
  | resolved
  | rejected
deriving DecidableEq, Repr

/-- Externally observable events: a waiter callback invocation for a
bundle url, and settlement of a promise. -/
inductive LogEv where
  | invoked (url : String) (cb : Nat)
  | promResolved (p : Nat)
  | promRejected (p : Nat)
deriving DecidableEq, Repr

/-- The whole `ModuleLoader` instance, plus observation devices: `heap`
maps exports-object ids to their properties (object identity = numeric
id), `nextId` allocates fresh ids, `scriptsInjected` records every
`head.appendChild(script)`, `invocations` records each factory
invocation by module id, `evLog` records callback invocations and
promise settlements, `trace` records `readFrom` observations, and
`ensureReturns` records the promise returned by each `ensureBundle`
call. -/
structure LoaderState where
  registered : List (String × List FCmd)
  modules : List (String × ModuleRec)
  /-- The `_matches` resolution cache (named `_lookupCache` in loader.ts). -/
  matchesCache : List (String × String)
  bundles : List (String × BundleRec)
  heap : List (Nat × List (String × String))
  promises : List (Nat × PromiseSt)
  nextId : Nat
  scriptsInjected : List String
  invocations : List String
  evLog : List LogEv
  trace : List (Nat × Option String)
  ensureReturns : List (String × Nat)
deriving DecidableEq, Repr

/-- A freshly constructed `ModuleLoader`. -/
def initState : LoaderState :=
  ⟨[], [], [], [], [], [], 0, [], [], [], [], []⟩

/-- The candidate registered paths for a parsed request: those whose
`(package, module)` pair equals the request's, paired with their
registered version strings (the `matches`/`versions` arrays built by
`_findMatch`, in `Object.keys` insertion order). -/
def candidatesOf (registered : List (String × List FCmd)) (source : PathInfo) :
    List (String × String) :=
  (registered.map Prod.fst).filterMap (fun m =>
    match parsePath m with
    | none => none
    | some target =>
      if target.package = source.package ∧ target.module = source.module then
        some (m, target.version)
      else none)

/-- `versions.indexOf(best)`: index of the first occurrence. -/
def indexOfStr : List String → String → Nat
  | [], _ => 0
  | v :: vs, best => if v = best then 0 else indexOfStr vs best + 1

/-- The cache-miss body of `_findMatch` (loader.ts `_findModuleId`,
lines 113-143): parse the request, collect candidates, select by
`maxSatisfying` only when more than one candidate exists, memoise. -/
def findMatchCompute (st : LoaderState) (path : String) :
    Except String String × LoaderState :=
  match parsePath path with
  | none => (.error ("Invalid module path " ++ path), st)
  | some source =>
    let cands := candidatesOf st.registered source
    match cands with
    | [] => (.error ("No module found matching: " ++ path), st)
    | [c] => (.ok c.1, { st with matchesCache := setA st.matchesCache path c.1 })
    | _ =>
      match maxSatisfying (cands.map Prod.snd) source.version with
      | none => (.error ("No module found satisying: " ++ path), st)
      | some best =>
        let chosen :=
          (cands.map Prod.fst).getD (indexOfStr (cands.map Prod.snd) best) ""
        (.ok chosen, { st with matchesCache := setA st.matchesCache path chosen })

/-- `_findMatch` with its memoisation: `if (cache[path]) return
cache[path];` — a cached empty string is falsy in JS, so only a
non-empty cached id short-circuits. -/
def findMatch (st : LoaderState) (path : String) :
    Except String String × LoaderState :=
  match lookupA st.matchesCache path with
  | some id => if id = "" then findMatchCompute st path else (.ok id, st)
  | none => findMatchCompute st path

/-- Read `exportsObj[key]` for the exports object with id `eid`. -/
def heapGet (st : LoaderState) (eid : Nat) (key : String) : Option String :=
  match lookupA st.heap eid with
  | some obj => lookupA obj key
  | none => none

/-- Write `exportsObj[key] = v` for the exports object with id `eid`. -/
def heapSet (st : LoaderState) (eid : Nat) (key v : String) : LoaderState :=
  match lookupA st.heap eid with
  | some obj => { st with heap := setA st.heap eid (setA obj key v) }
  | none => st

/-- One factory-body command, parameterised by the bound `require`
implementation (the loader passes itself). -/
def runCmd (req : LoaderState → String → Except String Nat × LoaderState)
    (self : Nat) (st : LoaderState) :
    FCmd → Except String Unit × LoaderState
  | .setExport k v => (.ok (), heapSet st self k v)
  | .requireMod p =>
    match req st p with
    | (.ok _, st) => (.ok (), st)
    | (.error e, st) => (.error e, st)
  | .readFrom p k =>
    match req st p with
    | (.ok rid, st) =>
      (.ok (), { st with trace := st.trace ++ [(rid, heapGet st rid k)] })
    | (.error e, st) => (.error e, st)

/-- A factory body: commands run in order; a thrown exception aborts the
body but keeps all mutations made so far. -/
def runCmds (req : LoaderState → String → Except String Nat × LoaderState)
    (self : Nat) : List FCmd → LoaderState → Except String Unit × LoaderState
  | [], st => (.ok (), st)
  | c :: cs, st =>
    match runCmd req self st c with
    | (.ok _, st) => runCmds req self cs st
    | (.error e, st) => (.error e, st)

/-- `require(path)` (loader.ts lines 47-71), with a fuel bound on the
dynamic nesting depth of requires (the JS original would overflow the
stack instead).  Resolve via `_findMatch`; return the cached instance's
exports if installed; otherwise insert a fresh module record with an
empty exports object **before** invoking the factory, invoke the
registered factory, flag the module loaded, and return its exports.
The returned `Nat` is the identity of the `exports` object. -/
def runRequire : Nat → LoaderState → String → Except String Nat × LoaderState
  | 0, st, _ => (.error "out of fuel", st)
  | fuel + 1, st, path =>
    match findMatch st path with
    | (.error e, st) => (.error e, st)
    | (.ok id, st) =>
      match lookupA st.modules id with
      | some m => (.ok m.exportsId, st)
      | none =>
        let eid := st.nextId
        let st := { st with
          nextId := eid + 1,
          heap := setA st.heap eid [],
          modules := setA st.modules id ⟨eid, false⟩ }
        match lookupA st.registered id with
        | none => (.error "TypeError: callback is not a function", st)
        | some cmds =>
          let st := { st with invocations := st.invocations ++ [id] }
          match runCmds (fun st p => runRequire fuel st p) eid cmds st with
          | (.ok _, st) =>
            (.ok eid, { st with modules := setA st.modules id ⟨eid, true⟩ })
          | (.error e, st) => (.error e, st)

/-- `_getBundle` (unnamed loader copy, lines 158-189): return the
existing record, or inject a script element for the url, create the
pending completion promise and record the new pending bundle. -/
def getBundle (st : LoaderState) (url : String) : BundleRec × LoaderState :=
  match lookupA st.bundles url with
  | some b => (b, st)
  | none =>
    let pid := st.nextId
    let b : BundleRec := ⟨false, [], pid⟩
    (b, { st with
      nextId := pid + 1,
      promises := (pid, .pending) :: st.promises,
      scriptsInjected := st.scriptsInjected ++ [url],
      bundles := setA st.bundles url b })

/-- `ensureBundle(path, callback?)` (loader.ts lines 80-95): when the
bundle is already loaded, invoke the callback immediately and return a
fresh already-resolved promise (`Promise.resolve(void 0)`); otherwise
append the callback to the waiter list and return the bundle's
completion promise.  Returns the id of the returned promise. -/
def ensureBundle (st : LoaderState) (url : String) (cb : Option Nat) :
    Nat × LoaderState :=
  let (b, st) := getBundle st url
  if b.loaded then
    let st :=
      match cb with
      | some c => { st with evLog := st.evLog ++ [LogEv.invoked url c] }
      | none => st
    let pid := st.nextId
    (pid, { st with
      nextId := pid + 1,
      promises := (pid, .resolved) :: st.promises,
      ensureReturns := st.ensureReturns ++ [(url, pid)] })
  else
    let st :=
      match cb with
      | some c =>
        { st with bundles := setA st.bundles url { b with callbacks := b.callbacks ++ [c] } }
      | none => st
    (b.promiseId, { st with ensureReturns := st.ensureReturns ++ [(url, b.promiseId)] })

/-- Settle a promise: a JS promise is single-settlement, so only a
pending promise changes state. -/
def settleProm (ps : List (Nat × PromiseSt)) (pid : Nat) (s : PromiseSt) :
    List (Nat × PromiseSt) :=
  ps.map (fun q => if q.1 = pid ∧ q.2 = .pending then (pid, s) else q)

/-- The script `onload` handler (loader.ts lines 157-164): drain the
waiter callbacks in FIFO order, flag the bundle loaded, then resolve the
completion promise.  A load event can only fire for a url whose script
was injected, i.e. whose bundle record exists. -/
def scriptLoadEv (st : LoaderState) (url : String) : LoaderState :=
  match lookupA st.bundles url with
  | none => st
  | some b =>
    { st with
      evLog := st.evLog ++ b.callbacks.map (LogEv.invoked url) ++ [LogEv.promResolved b.promiseId],
      bundles := setA st.bundles url { b with callbacks := [], loaded := true },
      promises := settleProm st.promises b.promiseId .resolved }

/-- The script `onerror` handler (loader.ts lines 165-167): reject the
completion promise; the bundle record's `loaded` flag and waiter list
are left untouched. -/
def scriptErrorEv (st : LoaderState) (url : String) : LoaderState :=
  match lookupA st.bundles url with
  | none => st
  | some b =>
    { st with
      evLog := st.evLog ++ [LogEv.promRejected b.promiseId],
      promises := settleProm st.promises b.promiseId .rejected }

/-- Default dynamic-nesting fuel for requires issued at the top level of
an operation sequence. -/
def opFuel : Nat := 64

/-- One externally triggered event on a loader instance: the public
`define` / `require` / `ensureBundle` entry points, and the DOM
load/error events of an injected script.  A top-level `require`'s thrown
error is caught by the host: the mutations it made persist. -/
inductive Op where
  | define (path : String) (cmds : List FCmd)
  | require (path : String)
  | ensure (url : String) (cb : Option Nat)
  | scriptLoad (url : String)
  | scriptError (url : String)
deriving DecidableEq, Repr

/-- Interpret one operation.  `define` (loader.ts lines 31-35) records
the factory only when the path is not yet registered. -/
def runOp (st : LoaderState) : Op → LoaderState
  | .define p cmds =>
    if (lookupA st.registered p).isSome then st
    else { st with registered := st.registered ++ [(p, cmds)] }
  | .require p => (runRequire opFuel st p).2
  | .ensure url cb => (ensureBundle st url cb).2
  | .scriptLoad url => scriptLoadEv st url
  | .scriptError url => scriptErrorEv st url

/-- Interpret a sequence of operations. -/
def runOps : List Op → LoaderState → LoaderState
  | [], st => st
  | op :: ops, st => runOps ops (runOp st op)

/-! ## Chunk rewriter: `_handleEnsure` (plugin.ts lines 197-215)

The rewriter loops `while (regex.test(source))` with the regex
`/__webpack_require__.e\((\d+)/`, looks up the referenced chunk id among
the compilation's chunks (the last matching chunk wins, the file name
stays the empty string when none matches), and replaces the matched text
with `__webpack_require__.e('<publicPath><fileName>'`.  There is no
throw anywhere in the function. -/

/-- A WebPack chunk as `_handleEnsure` consumes it: `id` is the image of
`String(chunk.id)` and `files` the chunk's asset file names. -/
structure Chunk where
  id : String
  files : List String
deriving DecidableEq, Repr

/-- Strip a literal character-list prefix. -/
def stripLit : List Char → List Char → Option (List Char)
  | [], cs => some cs
  | _ :: _, [] => none
  | p :: ps, c :: cs => if c = p then stripLit ps cs else none

/-- Match `__webpack_require__.e\((\d+)` at the head of the character
list: the literal `__webpack_require__`, one arbitrary
non-line-terminator character for the unescaped `.`, the literal `e(`,
then the maximal non-empty digit run (a greedy `\d+` with nothing after
it in the pattern).  Returns the digit group and the remainder after the
matched text. -/
def matchEnsureAt (cs : List Char) : Option (List Char × List Char) :=
  match stripLit "__webpack_require__".toList cs with
  | none => none
  | some rest =>
    match rest with
    | c :: 'e' :: '(' :: rest2 =>
      if jsDot c then
        let ds := rest2.takeWhile Char.isDigit
        if ds.isEmpty then none else some (ds, rest2.drop ds.length)
      else none
    | _ => none

/-- Leftmost match of the ensure regex in a character list: the text
before the match, the digit group, and the text after the match. -/
def findEnsure : List Char → Option (List Char × List Char × List Char)
  | [] => none
  | c :: cs =>
    match matchEnsureAt (c :: cs) with
    | some (ds, rest) => some ([], ds, rest)
    | none =>
      match findEnsure cs with
      | some (b, ds, rest) => some (c :: b, ds, rest)
      | none => none

/-- `chunk.files[0]`; JS string concatenation renders the undefined
produced by an empty array as `"undefined"`. -/
def chunkFile (c : Chunk) : String := c.files.headD "undefined"

/-- The `while (regex.test(source))` loop of `_handleEnsure`, with a
fuel bound (each iteration removes the leftmost digit match). -/
def handleEnsureGo (publicPath : String) (chunks : List Chunk) :
    Nat → String → String
  | 0, source => source
  | fuel + 1, source =>
    match findEnsure source.toList with
    | none => source
    | some (before, ds, rest) =>
      let chunkId : String := ⟨ds⟩
      let fileName :=
        chunks.foldl (fun acc c => if c.id = chunkId then chunkFile c else acc) ""
      let source' : String :=
        (⟨before⟩ : String) ++ "__webpack_require__.e('" ++ publicPath ++ fileName
          ++ "'" ++ (⟨rest⟩ : String)
      handleEnsureGo publicPath chunks fuel source'

/-- `_handleEnsure(compilation, source, regex)` for the plain (no inline
comment) ensure regex. -/
def handleEnsure (publicPath : String) (chunks : List Chunk) (source : String) :
    String :=
  handleEnsureGo publicPath chunks (source.length + 1) source

/-! ## Package probe and semver paths (plugin.ts `Private`, lines 325-410)

Absolute filesystem paths are modelled as lists of path segments (the
root `/` is `[]`); `path.dirname` is `List.dropLast`.  The filesystem is
a table from directories to the `package.json` they contain. -/

/-- The fields of a `package.json` the probe reads. -/
structure Pkg where
  name : String
  version : String
  /-- The `private` field (a Lean keyword, hence the name). -/
  isPrivate : Bool
  dependencies : List (String × String)
deriving DecidableEq, Repr

/-- A filesystem: which directories hold a `package.json`, plus
`process.cwd()`. -/
structure FS where
  pkgs : List (List String × Pkg)
  cwd : List String
deriving DecidableEq, Repr

/-- Render a segment path for error messages. -/
def pathStr (p : List String) : String := "/" ++ "/".intercalate p

/-- Does `path.extname(request)` return a non-empty string?  Node's
extname is the suffix of the basename from its last `.`, empty when the
only `.` is the leading character. -/
def hasExtname (p : List String) : Bool :=
  match p.getLast? with
  | some b => (b.toList.drop 1).contains '.'
  | none => false

/-- The `while (true)` walk of `findRoot` (plugin.ts lines 330-347):
accept a directory whose `package.json` exists and is either not private
or the current working directory; otherwise step to the parent, and fail
once the parent equals the directory itself (the filesystem root). -/
def findRootLoop (fs : FS) (orig : String) :
    Nat → List String → Except String (List String)
  | 0, _ => .error ("Could not find package for " ++ orig)
  | fuel + 1, dir =>
    let accept :=
      match lookupA fs.pkgs dir with
      | some pkg => !pkg.isPrivate || dir = fs.cwd
      | none => false
    if accept then .ok dir
    else if dir.dropLast = dir then .error ("Could not find package for " ++ orig)
    else findRootLoop fs orig fuel dir.dropLast

/-- `findRoot(request)` (plugin.ts lines 325-347): strip a file
basename when the request has an extension, then walk upward.  The fuel
`length + 1` covers every ancestor. -/
def findRoot (fs : FS) (request : List String) : Except String (List String) :=
  let start := if hasExtname request then request.dropLast else request
  findRootLoop fs (pathStr request) (start.length + 1) start

/-- `getPackage(request)` (plugin.ts lines 356-359): re-run `findRoot`
and read that directory's `package.json`. -/
def getPackage (fs : FS) (request : List String) : Except String Pkg :=
  match findRoot fs request with
  | .ok root =>
    match lookupA fs.pkgs root with
    | some pkg => .ok pkg
    | none => .error ("Cannot find module " ++ pathStr root ++ "/package.json")
  | .error e => .error e

/-- `path.resolve(base, rel)`: segments of `rel` applied to `base`
(restart at the root for an absolute `rel`), with `.` and `..`
normalised. -/
def resolveSegs (base : List String) (rel : String) : List String :=
  let parts := (rel.splitOn "/").filter (· ≠ "")
  let start := if rel.startsWith "/" then [] else base
  parts.foldl
    (fun acc seg =>
      if seg = "." then acc
      else if seg = ".." then acc.dropLast
      else acc ++ [seg])
    start

/-- `getModuleSemverPath(request, issuer)` (plugin.ts lines 388-410):
the range is the issuer's declared dependency range for the target
package (falling back to the target's own version when undeclared or
declared falsy), overridden to `~exactVersion` when issuer and target
are the same package, or to `~versionOnDisk` for a `file:` link. -/
def getModuleSemverPath (fs : FS) (request issuer : List String) :
    Except String String := do
  let rootPath ← findRoot fs request
  let rootPackage ← getPackage fs rootPath
  let issuerPath ← findRoot fs issuer
  let issuerPackage ← getPackage fs issuer
  let modPath := "/".intercalate (request.drop rootPath.length)
  let name := rootPackage.name
  -- `issuerPackage.dependencies[name] || rootPackage.version`: an absent
  -- or empty (falsy) declared range falls back to the target's version.
  let declared :=
    match lookupA issuerPackage.dependencies name with
    | some s => if s = "" then rootPackage.version else s
    | none => rootPackage.version
  let semver ←
    if issuerPackage.name = rootPackage.name then
      -- Allow patch version increments of itself.
      pure ("~" ++ rootPackage.version)
    else if declared.startsWith "file:" then do
      let sourcePath := resolveSegs issuerPath (declared.drop "file:".length)
      let sourcePackage ← getPackage fs sourcePath
      -- Allow patch version increments of local packages.
      pure ("~" ++ sourcePackage.version)
    else pure declared
  let id := name ++ "@" ++ semver
  pure (if modPath = "" then id else id ++ "/" ++ modPath)

/-! ## Statement-level definitions

Predicates and observation helpers used by the theorem statements. -/

/-- A valid bare package-name segment for the path grammar: non-empty,
containing neither `/` nor `@` (the character class `[^/@]`). -/
def ValidBare (s : String) : Prop :=
  s.toList ≠ [] ∧ ∀ c ∈ s.toList, ¬(c = '/' ∨ c = '@')

/-- A valid scope segment (after the leading `@`): non-empty with no `/`
(the character class `[^/]`). -/
def ValidScopeSeg (s : String) : Prop :=
  s.toList ≠ [] ∧ ∀ c ∈ s.toList, c ≠ '/'

/-- A valid version or range component: non-empty with no `/`. -/
def ValidVersion (s : String) : Prop :=
  s.toList ≠ [] ∧ ∀ c ∈ s.toList, c ≠ '/'

/-- A valid subpath: empty, or `/` followed by characters the regex `.`
matches. -/
def ValidSub (s : String) : Prop :=
  s = "" ∨ (s.toList.head? = some '/' ∧ s.toList.tail.all jsDot = true)

/-- The `module` capture group produced for a subpath `s`: absent
(`undefined`) exactly when `s` is empty. -/
def subGroup (s : String) : Option String :=
  if s = "" then none else some s

/-- The paths passed to `define` by an operation sequence, in order. -/
def definedPaths (ops : List Op) : List String :=
  ops.filterMap (fun op =>
    match op with
    | .define p _ => some p
    | _ => none)

/-- A canonical exact-version registry key: it parses, and its version
component is a plain exact semver version, not a range. -/
def CanonicalExact (p : String) : Prop :=
  ∃ info, parsePath p = some info ∧ (parseSemVer info.version).isSome

/-- The callbacks an operation sequence passes to `ensureBundle` for a
given url, in call order. -/
def collectCbs (url : String) : List Op → List Nat
  | [] => []
  | op :: ops =>
    match op with
    | .ensure u (some c) =>
      if u = url then c :: collectCbs url ops else collectCbs url ops
    | _ => collectCbs url ops

/-- State-preservation relation used for require monotonicity: non-empty
resolution-cache entries and the exports identity of installed modules
survive, and the registry is untouched. -/
def Pres (st st' : LoaderState) : Prop :=
  (∀ r id, id ≠ "" → lookupA st.matchesCache r = some id →
    lookupA st'.matchesCache r = some id) ∧
  (∀ id m, lookupA st.modules id = some m →
    ∃ m', lookupA st'.modules id = some m' ∧ m'.exportsId = m.exportsId) ∧
  st'.registered = st.registered

/-- The factory of module `a@1.0.0` in the cycle scenario: assign
`exports.x`, require the cyclic partner, assign `exports.y`, then run
arbitrary further assignments. -/
def cycleFA (asgn : List (String × String)) : List FCmd :=
  FCmd.setExport "x" "1" :: FCmd.requireMod "b@^1.0.0" ::
    FCmd.setExport "y" "2" ::
      asgn.map (fun kv => FCmd.setExport kv.1 kv.2)

/-- The factory of module `b@1.0.0` in the cycle scenario: require the
cyclic partner twice, reading its already-assigned property `x` and its
not-yet-assigned property `y`. -/
def cycleFB : List FCmd :=
  [FCmd.readFrom "a@^1.0.0" "x", FCmd.readFrom "a@^1.0.0" "y"]

/-- The registry holding the two mutually requiring modules. -/
def cycleStart (asgn : List (String × String)) : LoaderState :=
  runOps [Op.define "a@1.0.0" (cycleFA asgn), Op.define "b@1.0.0" cycleFB]
    initState

/-- Everything `require` leaves intact: `Pres`, plus the bundle-side
state, with a monotone allocation counter. -/
def MonoSt (st st' : LoaderState) : Prop :=
  Pres st st' ∧ st'.bundles = st.bundles ∧ st'.promises = st.promises ∧
  st'.scriptsInjected = st.scriptsInjected ∧ st'.evLog = st.evLog ∧
  st'.ensureReturns = st.ensureReturns ∧ st.nextId ≤ st'.nextId ∧
  ∃ l, st'.invocations = st.invocations ++ l

/-- The once-only invariant: every module id is invoked at most once;
invoked ids have installed modules and vice versa; cached resolutions
are non-empty ids of registered modules. -/
def Inv (st : LoaderState) : Prop :=
  (∀ id, st.invocations.count id ≤ 1) ∧
  (∀ id ∈ st.invocations, (lookupA st.modules id).isSome) ∧
  (∀ id, (lookupA st.modules id).isSome → id ∈ st.invocations) ∧
  (∀ r id, lookupA st.matchesCache r = some id →
    id ≠ "" ∧ (lookupA st.registered id).isSome)

/-- The bundle-table invariant: a url's script is injected exactly when
its bundle record exists; promise ids are allocated below `nextId` with
unique keys; every bundle's completion promise exists; bundle records
are keyed uniquely and distinct urls own distinct completion promises. -/
def BInv (st : LoaderState) : Prop :=
  (∀ url, st.scriptsInjected.count url =
    (if (lookupA st.bundles url).isSome then 1 else 0)) ∧
  (∀ q ∈ st.promises, q.1 < st.nextId) ∧
  (st.promises.map Prod.fst).Nodup ∧
  (∀ e ∈ st.bundles, (lookupA st.promises e.2.promiseId).isSome ∧
    e.2.promiseId < st.nextId) ∧
  (st.bundles.map Prod.fst).Nodup ∧
  (∀ e₁ ∈ st.bundles, ∀ e₂ ∈ st.bundles, e₁.1 ≠ e₂.1 →
    e₁.2.promiseId ≠ e₂.2.promiseId)

/-- The shape of a loader state reached by an operation sequence during
which no injected script has fired its `load` or `error` event yet:
nothing has been logged, every allocated promise is still pending, and
each url's bundle record (when it exists) is unloaded, holds exactly
the callbacks passed to `ensureBundle` for that url in FIFO order, and
owns the pending completion promise that every `ensureBundle` call for
that url returned. -/
def NoLoadSt (ops : List Op) (st : LoaderState) : Prop :=
  st.evLog = [] ∧
  (∀ q ∈ st.promises, q.2 = PromiseSt.pending) ∧
  (∀ url, lookupA st.bundles url = none →
    collectCbs url ops = [] ∧ ∀ pr ∈ st.ensureReturns, pr.1 ≠ url) ∧
  (∀ url b, lookupA st.bundles url = some b →
    b.loaded = false ∧ b.callbacks = collectCbs url ops ∧
    (lookupA st.promises b.promiseId).isSome ∧ b.promiseId < st.nextId ∧
    ∀ pr ∈ st.ensureReturns, pr.1 = url → pr.2 = b.promiseId)

/-! # Theorems -/

/-! ## Association-list lemmas -/

theorem lookupA_map_setfun_ne {κ α : Type} [DecidableEq κ]
    (l : List (κ × α)) (k k' : κ) (v : α) (h : k' ≠ k) :
    lookupA (l.map (fun p => if p.1 = k then (k, v) else p)) k' = lookupA l k' := by
  induction l with
  | nil => rfl
  | cons p l ih =>
    rw [List.map_cons]
    by_cases hp : p.1 = k
    · rw [if_pos hp]
      have hpk : ¬p.1 = k' := by rw [hp]; exact Ne.symm h
      simp only [lookupA]
      rw [if_neg (Ne.symm h), if_neg hpk, ih]
    · rw [if_neg hp]
      simp only [lookupA, ih]

theorem lookupA_map_setfun_self {κ α : Type} [DecidableEq κ]
    (l : List (κ × α)) (k : κ) (v : α) (h : (lookupA l k).isSome) :
    lookupA (l.map (fun p => if p.1 = k then (k, v) else p)) k = some v := by
  induction l with
  | nil => simp [lookupA] at h
  | cons p l ih =>
    rw [List.map_cons]
    by_cases hp : p.1 = k
    · rw [if_pos hp]
      simp [lookupA]
    · rw [if_neg hp]
      simp only [lookupA, if_neg hp] at h
      simp only [lookupA]
      rw [if_neg hp, ih h]

theorem lookupA_setA {κ α : Type} [DecidableEq κ]
    (l : List (κ × α)) (k k' : κ) (v : α) :
    lookupA (setA l k v) k' = if k' = k then some v else lookupA l k' := by
  unfold setA
  by_cases hs : (lookupA l k).isSome
  · rw [if_pos hs]
    by_cases hk : k' = k
    · subst hk
      simp [lookupA_map_setfun_self l k' v hs]
    · simp [lookupA_map_setfun_ne l k k' v hk, hk]
  · rw [if_neg hs]
    by_cases hk : k' = k
    · subst hk
      simp [lookupA]
    · simp [lookupA, Ne.symm hk, hk]

theorem lookupA_setA_self {κ α : Type} [DecidableEq κ]
    (l : List (κ × α)) (k : κ) (v : α) :
    lookupA (setA l k v) k = some v := by
  simp [lookupA_setA]

theorem lookupA_setA_ne {κ α : Type} [DecidableEq κ]
    (l : List (κ × α)) (k k' : κ) (v : α) (h : k' ≠ k) :
    lookupA (setA l k v) k' = lookupA l k' := by
  simp [lookupA_setA, h]

theorem lookupA_none_iff {κ α : Type} [DecidableEq κ]
    (l : List (κ × α)) (k : κ) :
    lookupA l k = none ↔ k ∉ l.map Prod.fst := by
  induction l with
  | nil => simp [lookupA]
  | cons p l ih =>
    by_cases hp : p.1 = k
    · simp [lookupA, hp]
    · simp [lookupA, hp, ih, Ne.symm hp]

theorem lookupA_isSome_iff {κ α : Type} [DecidableEq κ]
    (l : List (κ × α)) (k : κ) :
    (lookupA l k).isSome ↔ k ∈ l.map Prod.fst := by
  constructor
  · intro h
    by_contra hmem
    rw [(lookupA_none_iff l k).mpr hmem] at h
    simp at h
  · intro h
    cases hl : lookupA l k with
    | none => exact absurd ((lookupA_none_iff l k).mp hl) (by simp [h])
    | some v => simp

theorem lookupA_mem {κ α : Type} [DecidableEq κ]
    {l : List (κ × α)} {k : κ} {v : α} (h : lookupA l k = some v) :
    (k, v) ∈ l := by
  induction l with
  | nil => simp [lookupA] at h
  | cons p l ih =>
    by_cases hp : p.1 = k
    · simp only [lookupA, if_pos hp] at h
      obtain ⟨a, b⟩ := p
      obtain rfl : a = k := hp
      obtain rfl : b = v := Option.some.inj h
      exact List.mem_cons_self _ _
    · simp only [lookupA, if_neg hp] at h
      exact List.mem_cons_of_mem _ (ih h)

theorem mem_setA {κ α : Type} [DecidableEq κ]
    {l : List (κ × α)} {k : κ} {v : α} {q : κ × α} (h : q ∈ setA l k v) :
    q = (k, v) ∨ (q ∈ l ∧ q.1 ≠ k) := by
  unfold setA at h
  by_cases hs : (lookupA l k).isSome
  · rw [if_pos hs] at h
    rcases List.mem_map.mp h with ⟨p, hmem, hq⟩
    by_cases hp : p.1 = k
    · rw [if_pos hp] at hq
      exact Or.inl hq.symm
    · rw [if_neg hp] at hq
      exact Or.inr ⟨hq ▸ hmem, hq ▸ hp⟩
  · rw [if_neg hs] at h
    rcases List.mem_cons.mp h with h | h
    · exact Or.inl h
    · refine Or.inr ⟨h, ?_⟩
      intro hk
      have : k ∈ l.map Prod.fst := List.mem_map.mpr ⟨q, h, hk⟩
      exact absurd ((lookupA_none_iff l k).mp (by simpa using hs)) (by simp [this])

theorem setA_fst_present {κ α : Type} [DecidableEq κ]
    (l : List (κ × α)) (k : κ) (v : α) (h : (lookupA l k).isSome) :
    (setA l k v).map Prod.fst = l.map Prod.fst := by
  unfold setA
  rw [if_pos h, List.map_map]
  refine List.map_congr_left (fun p _ => ?_)
  by_cases hp : p.1 = k
  · simp [hp]
  · simp [hp]

theorem setA_fst_absent {κ α : Type} [DecidableEq κ]
    (l : List (κ × α)) (k : κ) (v : α) (h : ¬(lookupA l k).isSome) :
    (setA l k v).map Prod.fst = k :: l.map Prod.fst := by
  unfold setA
  rw [if_neg h, List.map_cons]

theorem lookupA_append_some {κ α : Type} [DecidableEq κ]
    {l₁ : List (κ × α)} (l₂ : List (κ × α)) {k : κ} {v : α}
    (h : lookupA l₁ k = some v) :
    lookupA (l₁ ++ l₂) k = some v := by
  induction l₁ with
  | nil => simp [lookupA] at h
  | cons p l ih =>
    by_cases hp : p.1 = k
    · simp only [lookupA, if_pos hp] at h ⊢
      exact h
    · simp only [lookupA, if_neg hp] at h ⊢
      exact ih h

theorem lookupA_append_none {κ α : Type} [DecidableEq κ]
    {l₁ : List (κ × α)} (l₂ : List (κ × α)) {k : κ}
    (h : lookupA l₁ k = none) :
    lookupA (l₁ ++ l₂) k = lookupA l₂ k := by
  induction l₁ with
  | nil => simp
  | cons p l ih =>
    by_cases hp : p.1 = k
    · simp [lookupA, hp] at h
    · simp only [lookupA, if_neg hp] at h
      rw [List.cons_append]
      simp only [lookupA]
      rw [if_neg hp]
      exact ih h

theorem lookupA_append_isSome {κ α : Type} [DecidableEq κ]
    {l₁ l₂ : List (κ × α)} {k : κ}
    (h : (lookupA (l₁ ++ l₂) k).isSome) :
    (lookupA l₁ k).isSome ∨ (lookupA l₂ k).isSome := by
  cases hl : lookupA l₁ k with
  | some v => simp
  | none =>
    rw [lookupA_append_none l₂ hl] at h
    exact Or.inr h

/-! ## Path codec lemmas (claim C8) -/

theorem matchSub_cons_false {c : Char} (hc : c ≠ '/') (t : List Char) :
    matchSub (c :: t) = false := by
  simp [matchSub, hc]

theorem matchVerFrom_append (v sub : List Char)
    (hv : v ≠ []) (hs : ∀ c ∈ v, c ≠ '/') (hsub : matchSub sub = true) :
    matchVerFrom (v ++ sub) = some (v, if sub.isEmpty then none else some sub) := by
  induction v with
  | nil => exact absurd rfl hv
  | cons c v ih =>
    cases v with
    | nil =>
      simp only [List.cons_append, List.nil_append]
      rw [matchVerFrom, if_neg (hs c (by simp)), if_pos hsub]
    | cons c2 v2 =>
      have hc : c ≠ '/' := hs c (by simp)
      have hc2 : c2 ≠ '/' := hs c2 (by simp)
      have hrec := ih (by simp) (fun x hx => hs x (List.mem_cons_of_mem c hx))
      simp only [List.cons_append] at hrec ⊢
      rw [matchVerFrom, if_neg hc,
        if_neg (by rw [matchSub_cons_false hc2]; simp), hrec]

theorem matchNameFrom_append (n rest v : List Char) (s : Option (List Char))
    (hn : n ≠ []) (hc : ∀ c ∈ n, ¬(c = '/' ∨ c = '@'))
    (hrest : matchVerFrom rest = some (v, s)) :
    matchNameFrom (n ++ '@' :: rest) = some (n, v, s) := by
  induction n with
  | nil => exact absurd rfl hn
  | cons c n ih =>
    cases n with
    | nil =>
      simp only [List.cons_append, List.nil_append]
      rw [matchNameFrom, if_neg (hc c (by simp)), if_pos rfl, hrest]
    | cons c2 n2 =>
      have h2 : ¬(c2 = '/' ∨ c2 = '@') := hc c2 (by simp)
      have hrec := ih (by simp) (fun x hx => hc x (List.mem_cons_of_mem c hx))
      simp only [List.cons_append] at hrec ⊢
      rw [matchNameFrom, if_neg (hc c (by simp)),
        if_neg (fun h => h2 (Or.inr h)), hrec]

theorem matchSub_of_validSub {s : String} (h : ValidSub s) :
    matchSub s.toList = true := by
  rcases h with h | ⟨h1, h2⟩
  · subst h
    rfl
  · cases hs : s.toList with
    | nil => rfl
    | cons c t =>
      rw [hs] at h1 h2
      simp only [List.head?] at h1
      obtain rfl : c = '/' := by injection h1
      simp only [List.tail] at h2
      simp [matchSub, h2]

theorem toList_eq_nil_iff (s : String) : s.toList = [] ↔ s = "" := by
  constructor
  · intro h
    cases s
    simp only [String.toList] at h
    simp [h]
  · intro h
    simp [h]

/-- The parsed subpath group for a valid subpath. -/
theorem subGroup_toList {s : String} :
    (if s.toList.isEmpty then none else some s.toList).map (String.mk ·) =
      subGroup s := by
  by_cases h : s = ""
  · subst h
    rfl
  · rw [subGroup, if_neg h,
      if_neg (by simp only [List.isEmpty_iff]
                 exact fun hh => h ((toList_eq_nil_iff s).mp hh))]
    rfl

theorem parsePath_bare (pkg ver sub : String)
    (h1 : ValidBare pkg) (h2 : ValidVersion ver) (h3 : ValidSub sub) :
    parsePath (pkg ++ "@" ++ ver ++ sub) = some ⟨pkg, ver, subGroup sub⟩ := by
  have hver := matchVerFrom_append ver.toList sub.toList h2.1 h2.2
    (matchSub_of_validSub h3)
  have hname := matchNameFrom_append pkg.toList (ver.toList ++ sub.toList)
    ver.toList (if sub.toList.isEmpty then none else some sub.toList)
    h1.1 h1.2 hver
  have hdata : (pkg ++ "@" ++ ver ++ sub).toList =
      pkg.toList ++ '@' :: (ver.toList ++ sub.toList) := by
    show (pkg ++ "@" ++ ver ++ sub).data = pkg.data ++ '@' :: (ver.data ++ sub.data)
    simp [String.data_append]
  simp only [parsePath, hdata, hname]
  rw [subGroup_toList]
  rfl

theorem takeWhile_ne_slash (sc : List Char) (t : List Char)
    (h : ∀ c ∈ sc, c ≠ '/') :
    (sc ++ '/' :: t).takeWhile (· ≠ '/') = sc := by
  induction sc with
  | nil => simp [List.takeWhile_cons]
  | cons c l ih =>
    simp only [List.cons_append, List.takeWhile_cons]
    rw [if_pos (by simpa using h c (by simp))]
    rw [ih (fun x hx => h x (List.mem_cons_of_mem c hx))]

theorem parsePath_scoped (scope bare ver sub : String)
    (h0 : ValidScopeSeg scope) (h1 : ValidBare bare)
    (h2 : ValidVersion ver) (h3 : ValidSub sub) :
    parsePath ("@" ++ scope ++ "/" ++ bare ++ "@" ++ ver ++ sub) =
      some ⟨"@" ++ scope ++ "/" ++ bare, ver, subGroup sub⟩ := by
  have hver := matchVerFrom_append ver.toList sub.toList h2.1 h2.2
    (matchSub_of_validSub h3)
  have hname := matchNameFrom_append bare.toList (ver.toList ++ sub.toList)
    ver.toList (if sub.toList.isEmpty then none else some sub.toList)
    h1.1 h1.2 hver
  have hdata : ("@" ++ scope ++ "/" ++ bare ++ "@" ++ ver ++ sub).toList =
      '@' :: (scope.toList ++ '/' :: (bare.toList ++ '@' :: (ver.toList ++ sub.toList))) := by
    show ("@" ++ scope ++ "/" ++ bare ++ "@" ++ ver ++ sub).data = _
    simp [String.data_append]
  -- the bare-name alternative fails instantly: the first character is `@`
  have hfail : matchNameFrom ('@' :: (scope.toList ++ '/' :: (bare.toList ++ '@' :: (ver.toList ++ sub.toList)))) = none := by
    cases hsc : scope.toList with
    | nil => exact absurd hsc h0.1
    | cons c t => rw [List.cons_append, matchNameFrom, if_pos (Or.inr rfl)]
  have htake := takeWhile_ne_slash scope.toList
    (bare.toList ++ '@' :: (ver.toList ++ sub.toList)) h0.2
  simp only [parsePath, hdata, hfail, htake]
  rw [if_neg (by simpa [List.isEmpty_iff] using h0.1)]
  rw [List.drop_left scope.toList]
  rw [if_neg (by simp)]
  have hdrop : (scope.toList ++ '/' :: (bare.toList ++ '@' :: (ver.toList ++ sub.toList))).drop
      (scope.toList.length + 1) = bare.toList ++ '@' :: (ver.toList ++ sub.toList) := by
    have : scope.toList ++ '/' :: (bare.toList ++ '@' :: (ver.toList ++ sub.toList)) =
        (scope.toList ++ ['/']) ++ (bare.toList ++ '@' :: (ver.toList ++ sub.toList)) := by
      simp
    rw [this]
    have hlen : scope.toList.length + 1 = (scope.toList ++ ['/']).length := by simp
    rw [hlen, List.drop_left]
  simp only [hdrop, hname]
  rw [subGroup_toList]
  have hpk : ('@' :: scope.toList ++ '/' :: bare.toList : List Char) =
      ("@" ++ scope ++ "/" ++ bare).data := by
    simp [String.data_append]
  rw [hpk]
  rfl

/-- Claim C8: the path codec is total (by construction it returns a parse
or `none`, never raising) and lossless: formatting any valid
`(pkg, version, sub)` triple — bare or scoped package names alike — and
parsing the result recovers exactly the original components, with the
subpath group absent (`undefined`) exactly when the subpath is empty;
in particular `@scope/pkg@1.0.0/lib/x.js` parses as package
`@scope/pkg`, version `1.0.0`, subpath `/lib/x.js`. -/
theorem C8_parse_roundtrip :
    (∀ pkg ver sub : String, ValidBare pkg → ValidVersion ver → ValidSub sub →
      parsePath (pkg ++ "@" ++ ver ++ sub) = some ⟨pkg, ver, subGroup sub⟩) ∧
    (∀ scope bare ver sub : String,
      ValidScopeSeg scope → ValidBare bare → ValidVersion ver → ValidSub sub →
      parsePath ("@" ++ scope ++ "/" ++ bare ++ "@" ++ ver ++ sub) =
        some ⟨"@" ++ scope ++ "/" ++ bare, ver, subGroup sub⟩) ∧
    parsePath "@scope/pkg@1.0.0/lib/x.js" =
      some ⟨"@scope/pkg", "1.0.0", some "/lib/x.js"⟩ :=
  ⟨parsePath_bare, parsePath_scoped, by decide⟩

/-- Witness for C8: the round-trip theorem applied at the concrete
triples `("foo", "1.0.0", "/x.js")` and `("@s", "p", "2.1.0", "")`. -/
theorem C8_parse_roundtrip_witness :
    parsePath ("foo" ++ "@" ++ "1.0.0" ++ "/x.js") =
      some ⟨"foo", "1.0.0", subGroup "/x.js"⟩ ∧
    parsePath ("@" ++ "s" ++ "/" ++ "p" ++ "@" ++ "2.1.0" ++ "") =
      some ⟨"@" ++ "s" ++ "/" ++ "p", "2.1.0", subGroup ""⟩ :=
  ⟨C8_parse_roundtrip.1 "foo" "1.0.0" "/x.js"
      (by unfold ValidBare; decide) (by unfold ValidVersion; decide)
      (by unfold ValidSub; decide),
    C8_parse_roundtrip.2.1 "s" "p" "2.1.0" ""
      (by unfold ValidScopeSeg; decide) (by unfold ValidBare; decide)
      (by unfold ValidVersion; decide) (by unfold ValidSub; decide)⟩

/-! ## Semver order and `maxSatisfying` lemmas (claim C1) -/

theorem svLt_char (a b : SemVer) :
    svLt a b = true ↔ (a.major < b.major ∨ (a.major = b.major ∧
      (a.minor < b.minor ∨ (a.minor = b.minor ∧ a.patch < b.patch)))) := by
  simp [svLt]

theorem svLtStr_irrefl (v : String) : svLtStr v v = false := by
  unfold svLtStr
  cases h : parseSemVer v with
  | none => rfl
  | some x =>
    rw [← Bool.not_eq_true, svLt_char]
    omega

theorem satisfies_parses {v r : String} (h : satisfies v r = true) :
    ∃ x, parseSemVer v = some x := by
  unfold satisfies at h
  cases hv : parseSemVer v with
  | none => rw [hv] at h; cases hr : parseRange r <;> simp [hr] at h
  | some x => exact ⟨x, rfl⟩

theorem svLtStr_of_lt_of_nlt {b w x : String} {sb sw sx : SemVer}
    (hb : parseSemVer b = some sb) (hw : parseSemVer w = some sw)
    (hx : parseSemVer x = some sx)
    (h1 : svLtStr b w = true) (h2 : svLtStr x w = false) :
    svLtStr b x = true := by
  unfold svLtStr at h1 h2 ⊢
  rw [hb, hw] at h1
  rw [hx, hw] at h2
  rw [hb, hx]
  rw [svLt_char] at h1 ⊢
  rw [← Bool.not_eq_true, svLt_char] at h2
  omega

theorem svLtStr_trans {a b c : String}
    (h1 : svLtStr a b = true) (h2 : svLtStr b c = true) :
    svLtStr a c = true := by
  unfold svLtStr at h1 h2 ⊢
  cases ha : parseSemVer a <;> rw [ha] at h1 <;>
    cases hb : parseSemVer b <;> rw [hb] at h1 h2 <;>
      cases hc : parseSemVer c <;> rw [hc] at h2
  all_goals try cases h1
  all_goals try cases h2
  rw [svLt_char] at h1 h2 ⊢
  omega

theorem maxSatStep_none_sat {r v : String} (hs : satisfies v r = true) :
    maxSatStep r none v = some v := by
  unfold maxSatStep
  rw [if_pos hs]

theorem maxSatStep_some_eval {r v : String} (x : String)
    (hs : satisfies v r = true) :
    maxSatStep r (some x) v = if svLtStr x v = true then some v else some x := by
  unfold maxSatStep
  rw [if_pos hs]

theorem maxSatStep_nosat {r v : String} (acc : Option String)
    (hs : satisfies v r = false) :
    maxSatStep r acc v = acc := by
  unfold maxSatStep
  rw [if_neg (by simp [hs])]

theorem maxSatStep_sat_inv {r v : String} {acc : Option String} {y : String}
    (hacc : ∀ x, acc = some x → satisfies x r = true)
    (hy : maxSatStep r acc v = some y) : satisfies y r = true := by
  by_cases hs : satisfies v r = true
  · cases hc : acc with
    | none =>
      rw [hc, maxSatStep_none_sat hs] at hy
      cases hy
      exact hs
    | some a =>
      rw [hc, maxSatStep_some_eval a hs] at hy
      by_cases hlt : svLtStr a v = true
      · rw [if_pos hlt] at hy
        cases hy
        exact hs
      · rw [if_neg hlt] at hy
        cases hy
        exact hacc y hc
  · rw [Bool.not_eq_true] at hs
    rw [maxSatStep_nosat acc hs] at hy
    exact hacc y hy

theorem maxSat_go_some (r : String) (vs : List String) (x : String) :
    ∃ y, vs.foldl (maxSatStep r) (some x) = some y := by
  induction vs generalizing x with
  | nil => exact ⟨x, rfl⟩
  | cons v vs ih =>
    rw [List.foldl_cons]
    by_cases hs : satisfies v r = true
    · rw [maxSatStep_some_eval x hs]
      by_cases hlt : svLtStr x v = true
      · rw [if_pos hlt]
        exact ih v
      · rw [if_neg hlt]
        exact ih x
    · rw [Bool.not_eq_true] at hs
      rw [maxSatStep_nosat _ hs]
      exact ih x

theorem maxSat_go_sat (r : String) (vs : List String) :
    ∀ acc b, (∀ x, acc = some x → satisfies x r = true) →
      vs.foldl (maxSatStep r) acc = some b → satisfies b r = true := by
  induction vs with
  | nil =>
    intro acc b hacc h
    exact hacc b h
  | cons v vs ih =>
    intro acc b hacc h
    rw [List.foldl_cons] at h
    exact ih _ b (fun x hx => maxSatStep_sat_inv hacc hx) h

theorem maxSat_go_mem (r : String) (vs : List String) :
    ∀ acc b, vs.foldl (maxSatStep r) acc = some b →
      acc = some b ∨ b ∈ vs := by
  induction vs with
  | nil =>
    intro acc b h
    exact Or.inl h
  | cons v vs ih =>
    intro acc b h
    rw [List.foldl_cons] at h
    rcases ih _ b h with hstep | hmem
    · by_cases hs : satisfies v r = true
      · cases hc : acc with
        | none =>
          rw [hc, maxSatStep_none_sat hs] at hstep
          cases hstep
          exact Or.inr (by simp)
        | some a =>
          rw [hc, maxSatStep_some_eval a hs] at hstep
          by_cases hlt : svLtStr a v = true
          · rw [if_pos hlt] at hstep
            cases hstep
            exact Or.inr (by simp)
          · rw [if_neg hlt] at hstep
            exact Or.inl hstep
      · rw [Bool.not_eq_true] at hs
        rw [maxSatStep_nosat acc hs] at hstep
        exact Or.inl hstep
    · exact Or.inr (List.mem_cons_of_mem v hmem)

theorem maxSat_go_mono (r : String) (vs : List String) :
    ∀ acc b x, (∀ y, acc = some y → satisfies y r = true) →
      vs.foldl (maxSatStep r) acc = some b → acc = some x →
      svLtStr b x = false := by
  induction vs with
  | nil =>
    intro acc b x _ h hx
    rw [hx] at h
    cases h
    exact svLtStr_irrefl _
  | cons v vs ih =>
    intro acc b x hacc h hx
    rw [List.foldl_cons] at h
    subst hx
    have hsat_x : satisfies x r = true := hacc x rfl
    by_cases hs : satisfies v r = true
    · rw [maxSatStep_some_eval x hs] at h
      by_cases hlt : svLtStr x v = true
      · rw [if_pos hlt] at h
        have hbv := ih _ b v (fun y hy => by cases hy; exact hs) h rfl
        by_contra hbx
        rw [Bool.not_eq_false] at hbx
        have : svLtStr b v = true := svLtStr_trans hbx hlt
        rw [this] at hbv
        cases hbv
      · rw [if_neg hlt] at h
        exact ih _ b x (fun y hy => by cases hy; exact hsat_x) h rfl
    · rw [Bool.not_eq_true] at hs
      rw [maxSatStep_nosat _ hs] at h
      exact ih _ b x hacc h rfl

theorem maxSat_go_max (r : String) (vs : List String) :
    ∀ acc b, (∀ y, acc = some y → satisfies y r = true) →
      vs.foldl (maxSatStep r) acc = some b →
      ∀ v ∈ vs, satisfies v r = true → svLtStr b v = false := by
  induction vs with
  | nil =>
    intro _ _ _ _ v hv
    cases hv
  | cons w vs ih =>
    intro acc b hacc h v hv hsat
    rw [List.foldl_cons] at h
    have hacc' : ∀ y, maxSatStep r acc w = some y → satisfies y r = true :=
      fun y hy => maxSatStep_sat_inv hacc hy
    rcases List.mem_cons.mp hv with rfl | hv'
    · -- the head element: the running best never drops below it
      cases hc : acc with
      | none =>
        rw [hc, maxSatStep_none_sat hsat] at h
        exact maxSat_go_mono r vs _ b v
          (fun y hy => by cases hy; exact hsat) h rfl
      | some x =>
        rw [hc, maxSatStep_some_eval x hsat] at h
        by_cases hlt : svLtStr x v = true
        · rw [if_pos hlt] at h
          exact maxSat_go_mono r vs _ b v
            (fun y hy => by cases hy; exact hsat) h rfl
        · rw [if_neg hlt] at h
          have hbx := maxSat_go_mono r vs _ b x
            (fun y hy => by cases hy; exact hacc x hc) h rfl
          by_contra hbv
          rw [Bool.not_eq_false] at hbv
          obtain ⟨sb, hsb⟩ := satisfies_parses
            (maxSat_go_sat r vs _ b (fun y hy => by cases hy; exact hacc x hc) h)
          obtain ⟨sx, hsx⟩ := satisfies_parses (hacc x hc)
          obtain ⟨sv, hsv⟩ := satisfies_parses hsat
          rw [Bool.not_eq_true] at hlt
          have : svLtStr b x = true := svLtStr_of_lt_of_nlt hsb hsv hsx hbv hlt
          rw [this] at hbx
          cases hbx
    · exact ih _ b hacc' h v hv' hsat

theorem maxSatisfying_spec {vs : List String} {r b : String}
    (h : maxSatisfying vs r = some b) :
    b ∈ vs ∧ satisfies b r = true ∧
      ∀ v ∈ vs, satisfies v r = true → svLtStr b v = false := by
  refine ⟨?_, ?_, ?_⟩
  · rcases maxSat_go_mem r vs none b h with hc | hm
    · cases hc
    · exact hm
  · exact maxSat_go_sat r vs none b (fun x hx => by cases hx) h
  · exact maxSat_go_max r vs none b (fun x hx => by cases hx) h

theorem maxSatisfying_of_all_false {vs : List String} {r : String}
    (h : ∀ v ∈ vs, satisfies v r = false) :
    maxSatisfying vs r = none := by
  unfold maxSatisfying
  induction vs with
  | nil => rfl
  | cons v vs ih =>
    rw [List.foldl_cons, maxSatStep_nosat none (h v (by simp))]
    exact ih (fun w hw => h w (List.mem_cons_of_mem v hw))

/-! ## Resolution lemmas and claim C1 -/

theorem mem_candidatesOf {reg : List (String × List FCmd)} {src : PathInfo}
    {m v : String} (h : (m, v) ∈ candidatesOf reg src) :
    m ∈ reg.map Prod.fst ∧ parsePath m = some ⟨src.package, v, src.module⟩ := by
  unfold candidatesOf at h
  rcases List.mem_filterMap.mp h with ⟨a, hmem, hf⟩
  cases hp : parsePath a with
  | none => rw [hp] at hf; cases hf
  | some target =>
    rw [hp] at hf
    have hf2 : (if target.package = src.package ∧ target.module = src.module
        then some (a, target.version) else none) = some (m, v) := hf
    by_cases hcond : target.package = src.package ∧ target.module = src.module
    · rw [if_pos hcond] at hf2
      obtain ⟨rfl, rfl⟩ : a = m ∧ target.version = v := by
        injection hf2 with hf2
        exact ⟨congrArg Prod.fst hf2, congrArg Prod.snd hf2⟩
      refine ⟨hmem, ?_⟩
      rw [hp]
      cases target
      obtain ⟨h1, h2⟩ := hcond
      simp only at h1 h2 ⊢
      rw [h1, h2]
    · rw [if_neg hcond] at hf2
      cases hf2

theorem candidate_fst_ne_empty {reg : List (String × List FCmd)}
    {src : PathInfo} {m v : String} (h : (m, v) ∈ candidatesOf reg src) :
    m ≠ "" := by
  intro hm
  have := (mem_candidatesOf h).2
  rw [hm] at this
  cases this

theorem getD_indexOf_pair :
    ∀ (cands : List (String × String)) (best : String),
      best ∈ cands.map Prod.snd →
      ((cands.map Prod.fst).getD (indexOfStr (cands.map Prod.snd) best) "",
        best) ∈ cands := by
  intro cands
  induction cands with
  | nil =>
    intro best h
    cases h
  | cons c cs ih =>
    intro best h
    rw [List.map_cons]
    simp only [indexOfStr]
    by_cases hc : c.2 = best
    · rw [if_pos hc]
      simp only [List.map_cons, List.getD_cons_zero]
      rw [← hc]
      exact List.mem_cons_self _ _
    · rw [if_neg hc]
      have hmem : best ∈ cs.map Prod.snd := by
        rw [List.map_cons] at h
        rcases List.mem_cons.mp h with h' | h'
        · exact absurd h'.symm hc
        · exact h'
      simp only [List.map_cons, List.getD_cons_succ]
      exact List.mem_cons_of_mem c (ih best hmem)

/-- Claim C1, counterexample: with only `foo@1.2.3` registered,
`require('foo@^2.0.0')` does **not** raise NoSatisfying — `_findMatch`
resolves it to `foo@1.2.3` although `1.2.3` does not satisfy `^2.0.0`,
because the semver check is skipped when exactly one candidate shares
`(pkg, sub)`. -/
theorem C1_single_candidate_cex :
    (findMatch (runOps [Op.define "foo@1.2.3" []] initState) "foo@^2.0.0").1 =
      Except.ok "foo@1.2.3" ∧
    satisfies "1.2.3" "^2.0.0" = false := by
  constructor
  · rfl
  · rfl

/-- Claim C1, amended: for a request `pkg@R/sub` that misses the
resolution cache, when **two or more** registered exact versions share
`(pkg, sub)`, `require` resolves to the candidate whose version is the
greatest, under semver ordering, among those satisfying `R`, and fails
with NoSatisfying (`"No module found satisying: …"`, the source's literal
message) when none satisfies; but when exactly **one** candidate shares
`(pkg, sub)`, it is selected without any range check — so with only
`foo@1.2.3` registered, `require('foo@^2.0.0')` resolves to `foo@1.2.3`
instead of raising NoSatisfying. -/
theorem C1_resolution_amended :
    ∀ (st : LoaderState) (path : String) (info : PathInfo),
      lookupA st.matchesCache path = none →
      parsePath path = some info →
      ((∀ m v, candidatesOf st.registered info = [(m, v)] →
          (findMatch st path).1 = .ok m) ∧
       (2 ≤ (candidatesOf st.registered info).length →
        ((∀ v ∈ (candidatesOf st.registered info).map Prod.snd,
            satisfies v info.version = false) →
          (findMatch st path).1 =
            .error ("No module found satisying: " ++ path)) ∧
        (∀ best,
          maxSatisfying ((candidatesOf st.registered info).map Prod.snd)
              info.version = some best →
          ∃ m, (m, best) ∈ candidatesOf st.registered info ∧
            (findMatch st path).1 = .ok m ∧
            satisfies best info.version = true ∧
            ∀ v ∈ (candidatesOf st.registered info).map Prod.snd,
              satisfies v info.version = true → svLtStr best v = false))) := by
  intro st path info hcache hparse
  have hfm : findMatch st path = findMatchCompute st path := by
    unfold findMatch
    rw [hcache]
  constructor
  · intro m v hc
    rw [hfm]
    simp only [findMatchCompute, hparse, hc]
  · intro hlen
    have hex : ∃ c1 c2 rest2,
        candidatesOf st.registered info = c1 :: c2 :: rest2 := by
      cases hc : candidatesOf st.registered info with
      | nil => rw [hc] at hlen; cases hlen
      | cons c1 rest =>
        cases rest with
        | nil =>
          rw [hc] at hlen
          simp at hlen
        | cons c2 rest2 => exact ⟨c1, c2, rest2, rfl⟩
    obtain ⟨c1, c2, rest2, hshape⟩ := hex
    constructor
    · intro hall
      rw [hfm]
      have hnone := @maxSatisfying_of_all_false
        ((candidatesOf st.registered info).map Prod.snd) info.version hall
      rw [hshape] at hnone
      simp only [findMatchCompute, hparse, hshape, hnone]
    · intro best hbest
      have hspec := maxSatisfying_spec hbest
      have hpair := getD_indexOf_pair (candidatesOf st.registered info)
        best hspec.1
      refine ⟨_, hpair, ?_, hspec.2.1, hspec.2.2⟩
      rw [hfm]
      rw [hshape] at hbest
      simp only [findMatchCompute, hparse, hshape, hbest]

/-- Witness for the amended C1: with `foo@1.0.0` and `foo@1.2.3`
registered, `require('foo@^1.0.0')` resolves to `foo@1.2.3`, the
greatest satisfying version. -/
theorem C1_resolution_amended_witness :
    ∃ m, (m, "1.2.3") ∈ candidatesOf
        (runOps [Op.define "foo@1.0.0" [], Op.define "foo@1.2.3" []]
          initState).registered ⟨"foo", "^1.0.0", none⟩ ∧
      (findMatch
        (runOps [Op.define "foo@1.0.0" [], Op.define "foo@1.2.3" []]
          initState) "foo@^1.0.0").1 = .ok m ∧
      satisfies "1.2.3" "^1.0.0" = true ∧
      ∀ v ∈ (candidatesOf
          (runOps [Op.define "foo@1.0.0" [], Op.define "foo@1.2.3" []]
            initState).registered ⟨"foo", "^1.0.0", none⟩).map Prod.snd,
        satisfies v "^1.0.0" = true → svLtStr "1.2.3" v = false :=
  ((C1_resolution_amended
      (runOps [Op.define "foo@1.0.0" [], Op.define "foo@1.2.3" []] initState)
      "foo@^1.0.0" ⟨"foo", "^1.0.0", none⟩ rfl rfl).2
    (by decide)).2 "1.2.3" (by decide)

/-! ## Require monotonicity (claims C2, C3) -/

theorem cand_registered {reg : List (String × List FCmd)} {src : PathInfo}
    {m v : String} (h : (m, v) ∈ candidatesOf reg src) :
    (lookupA reg m).isSome :=
  (lookupA_isSome_iff reg m).mpr (mem_candidatesOf h).1

theorem findMatchCompute_cases (st : LoaderState) (path : String) :
    (∃ msg, findMatchCompute st path = (.error msg, st)) ∨
    ∃ id, findMatchCompute st path =
      (.ok id, { st with matchesCache := setA st.matchesCache path id }) ∧
      id ≠ "" ∧ (lookupA st.registered id).isSome := by
  cases hp : parsePath path with
  | none =>
    exact Or.inl ⟨"Invalid module path " ++ path,
      by simp only [findMatchCompute, hp]⟩
  | some info =>
    cases hc : candidatesOf st.registered info with
    | nil =>
      exact Or.inl ⟨"No module found matching: " ++ path,
        by simp only [findMatchCompute, hp, hc]⟩
    | cons c1 rest =>
      cases rest with
      | nil =>
        refine Or.inr ⟨c1.1, by simp only [findMatchCompute, hp, hc], ?_, ?_⟩
        · exact candidate_fst_ne_empty (m := c1.1) (v := c1.2)
            (by rw [hc]; simp)
        · exact cand_registered (m := c1.1) (v := c1.2) (by rw [hc]; simp)
      | cons c2 rest2 =>
        cases hm : maxSatisfying ((c1 :: c2 :: rest2).map Prod.snd)
            info.version with
        | none =>
          exact Or.inl ⟨"No module found satisying: " ++ path,
            by simp only [findMatchCompute, hp, hc, hm]⟩
        | some best =>
          refine Or.inr ⟨((c1 :: c2 :: rest2).map Prod.fst).getD
              (indexOfStr ((c1 :: c2 :: rest2).map Prod.snd) best) "",
            by simp only [findMatchCompute, hp, hc, hm], ?_, ?_⟩
          · have hbest : maxSatisfying
                ((candidatesOf st.registered info).map Prod.snd) info.version =
                  some best := by rw [hc]; exact hm
            have hpair := getD_indexOf_pair (candidatesOf st.registered info)
              best (maxSatisfying_spec hbest).1
            have := candidate_fst_ne_empty hpair
            rw [hc] at this
            exact this
          · have hbest : maxSatisfying
                ((candidatesOf st.registered info).map Prod.snd) info.version =
                  some best := by rw [hc]; exact hm
            have hpair := getD_indexOf_pair (candidatesOf st.registered info)
              best (maxSatisfying_spec hbest).1
            have := cand_registered hpair
            rw [hc] at this
            exact this

theorem findMatchCompute_ok_cache {st : LoaderState} {path id : String}
    {st' : LoaderState} (h : findMatchCompute st path = (.ok id, st')) :
    lookupA st'.matchesCache path = some id ∧ id ≠ "" := by
  rcases findMatchCompute_cases st path with ⟨msg, hcase⟩ | ⟨id', hcase, hne, hreg⟩
  · rw [h] at hcase
    cases congrArg Prod.fst hcase
  · rw [h] at hcase
    have h1 := congrArg Prod.fst hcase
    have h2 := congrArg Prod.snd hcase
    simp only [] at h1 h2
    obtain rfl := Except.ok.inj h1
    rw [h2]
    exact ⟨lookupA_setA_self _ _ _, hne⟩

theorem pres_refl (st : LoaderState) : Pres st st :=
  ⟨fun _ _ _ h => h, fun _ m h => ⟨m, h, rfl⟩, rfl⟩

theorem pres_trans {s1 s2 s3 : LoaderState}
    (h12 : Pres s1 s2) (h23 : Pres s2 s3) : Pres s1 s3 := by
  refine ⟨fun r id hne h => h23.1 r id hne (h12.1 r id hne h), ?_,
    h23.2.2.trans h12.2.2⟩
  intro id m h
  obtain ⟨m', h', he'⟩ := h12.2.1 id m h
  obtain ⟨m'', h'', he''⟩ := h23.2.1 id m' h'
  exact ⟨m'', h'', he''.trans he'⟩

theorem monoSt_refl (st : LoaderState) : MonoSt st st :=
  ⟨pres_refl st, rfl, rfl, rfl, rfl, rfl, le_refl _, [], by simp⟩

theorem monoSt_trans {s1 s2 s3 : LoaderState}
    (h12 : MonoSt s1 s2) (h23 : MonoSt s2 s3) : MonoSt s1 s3 := by
  obtain ⟨p12, b12, pr12, s12, e12, r12, n12, l12, hl12⟩ := h12
  obtain ⟨p23, b23, pr23, s23, e23, r23, n23, l23, hl23⟩ := h23
  refine ⟨pres_trans p12 p23, b23.trans b12, pr23.trans pr12,
    s23.trans s12, e23.trans e12, r23.trans r12, le_trans n12 n23,
    l12 ++ l23, ?_⟩
  rw [hl23, hl12, List.append_assoc]

theorem findMatch_monoSt (st : LoaderState) (path : String) :
    MonoSt st (findMatch st path).2 := by
  have hcompute : (lookupA st.matchesCache path = none ∨
      lookupA st.matchesCache path = some "") →
      MonoSt st (findMatchCompute st path).2 := by
    intro hl
    rcases findMatchCompute_cases st path with ⟨msg, hcase⟩ | ⟨id', hcase, hne, hreg⟩
    · rw [hcase]
      exact monoSt_refl st
    · rw [hcase]
      refine ⟨⟨?_, fun id m h => ⟨m, h, rfl⟩, rfl⟩, rfl, rfl, rfl, rfl, rfl,
        le_refl _, [], by simp⟩
      intro r id hne2 hr
      show lookupA (setA st.matchesCache path id') r = some id
      by_cases hrp : r = path
      · subst hrp
        rcases hl with hl | hl
        · rw [hl] at hr
          cases hr
        · rw [hl] at hr
          exact absurd (Option.some.inj hr).symm hne2
      · rw [lookupA_setA_ne _ _ _ _ hrp]
        exact hr
  unfold findMatch
  cases hl : lookupA st.matchesCache path with
  | none =>
    dsimp only
    exact hcompute (Or.inl hl)
  | some id0 =>
    dsimp only
    by_cases hid : id0 = ""
    · rw [if_pos hid]
      exact hcompute (Or.inr (hid ▸ hl))
    · rw [if_neg hid]
      exact monoSt_refl st

theorem heapSet_monoSt (st : LoaderState) (eid : Nat) (k v : String) :
    MonoSt st (heapSet st eid k v) := by
  unfold heapSet
  cases lookupA st.heap eid with
  | none => exact monoSt_refl st
  | some obj =>
    exact ⟨⟨fun _ _ _ h => h, fun _ m h => ⟨m, h, rfl⟩, rfl⟩,
      rfl, rfl, rfl, rfl, rfl, le_refl _, [], by simp⟩

theorem runCmd_monoSt
    {req : LoaderState → String → Except String Nat × LoaderState}
    (hreq : ∀ st p, MonoSt st (req st p).2) (self : Nat)
    (st : LoaderState) (c : FCmd) :
    MonoSt st (runCmd req self st c).2 := by
  cases c with
  | setExport k v => exact heapSet_monoSt st self k v
  | requireMod p =>
    show MonoSt st (match req st p with
      | (.ok _, st) => ((.ok () : Except String Unit), st)
      | (.error e, st) => (.error e, st)).2
    rcases hr : req st p with ⟨res, st'⟩
    have := hreq st p
    rw [hr] at this
    cases res with
    | ok _ => exact this
    | error e => exact this
  | readFrom p k =>
    show MonoSt st (match req st p with
      | (.ok rid, st) =>
          ((.ok () : Except String Unit),
            { st with trace := st.trace ++ [(rid, heapGet st rid k)] })
      | (.error e, st) => (.error e, st)).2
    rcases hr : req st p with ⟨res, st'⟩
    have := hreq st p
    rw [hr] at this
    cases res with
    | ok rid =>
      refine monoSt_trans this ?_
      exact ⟨⟨fun _ _ _ h => h, fun _ m h => ⟨m, h, rfl⟩, rfl⟩,
        rfl, rfl, rfl, rfl, rfl, le_refl _, [], by simp⟩
    | error e => exact this

theorem runCmds_monoSt
    {req : LoaderState → String → Except String Nat × LoaderState}
    (hreq : ∀ st p, MonoSt st (req st p).2) (self : Nat) :
    ∀ (cmds : List FCmd) (st : LoaderState),
      MonoSt st (runCmds req self cmds st).2 := by
  intro cmds
  induction cmds with
  | nil => exact fun st => monoSt_refl st
  | cons c cs ih =>
    intro st
    show MonoSt st (match runCmd req self st c with
      | (.ok _, st) => runCmds req self cs st
      | (.error e, st) => (.error e, st)).2
    rcases hc : runCmd req self st c with ⟨res, st'⟩
    have hmono := runCmd_monoSt hreq self st c
    rw [hc] at hmono
    cases res with
    | ok _ => exact monoSt_trans hmono (ih st')
    | error e => exact hmono

theorem runRequire_monoSt :
    ∀ (fuel : Nat) (st : LoaderState) (p : String),
      MonoSt st (runRequire fuel st p).2 := by
  intro fuel
  induction fuel with
  | zero => exact fun st p => monoSt_refl st
  | succ fuel ih =>
    intro st p
    have hA := findMatch_monoSt st p
    simp only [runRequire]
    rcases hfm : findMatch st p with ⟨res, stA⟩
    rw [hfm] at hA
    cases res with
    | error e =>
      exact hA
    | ok id =>
      dsimp only
      cases hmod : lookupA stA.modules id with
      | some m =>
        dsimp only
        exact hA
      | none =>
        dsimp only
        have hB : MonoSt stA { stA with
            nextId := stA.nextId + 1,
            heap := setA stA.heap stA.nextId [],
            modules := setA stA.modules id ⟨stA.nextId, false⟩ } := by
          refine ⟨⟨fun _ _ _ h => h, ?_, rfl⟩, rfl, rfl, rfl, rfl, rfl,
            Nat.le_succ _, [], by simp⟩
          intro id0 m0 h0
          refine ⟨m0, ?_, rfl⟩
          show lookupA (setA stA.modules id ⟨stA.nextId, false⟩) id0 = some m0
          have hne : id0 ≠ id := by
            intro hq
            rw [hq, hmod] at h0
            cases h0
          rw [lookupA_setA_ne _ _ _ _ hne]
          exact h0
        cases hreg : lookupA stA.registered id with
        | none =>
          dsimp only
          exact monoSt_trans hA hB
        | some cmds =>
          dsimp only
          have hC : MonoSt ({ stA with
              nextId := stA.nextId + 1,
              heap := setA stA.heap stA.nextId [],
              modules := setA stA.modules id ⟨stA.nextId, false⟩ } : LoaderState)
              { stA with
                nextId := stA.nextId + 1,
                heap := setA stA.heap stA.nextId [],
                modules := setA stA.modules id ⟨stA.nextId, false⟩,
                invocations := stA.invocations ++ [id] } :=
            ⟨⟨fun _ _ _ h => h, fun _ m h => ⟨m, h, rfl⟩, rfl⟩,
              rfl, rfl, rfl, rfl, rfl, le_refl _, [id], rfl⟩
          rcases hrc : runCmds (fun st p => runRequire fuel st p)
              stA.nextId cmds { stA with
                nextId := stA.nextId + 1,
                heap := setA stA.heap stA.nextId [],
                modules := setA stA.modules id ⟨stA.nextId, false⟩,
                invocations := stA.invocations ++ [id] } with ⟨cres, stD⟩
          have hD : MonoSt ({ stA with
              nextId := stA.nextId + 1,
              heap := setA stA.heap stA.nextId [],
              modules := setA stA.modules id ⟨stA.nextId, false⟩,
              invocations := stA.invocations ++ [id] } : LoaderState) stD := by
            have := runCmds_monoSt (fun st p => ih st p) stA.nextId cmds
              { stA with
                nextId := stA.nextId + 1,
                heap := setA stA.heap stA.nextId [],
                modules := setA stA.modules id ⟨stA.nextId, false⟩,
                invocations := stA.invocations ++ [id] }
            rw [hrc] at this
            exact this
          have hchain : MonoSt st stD :=
            monoSt_trans hA (monoSt_trans hB (monoSt_trans hC hD))
          cases cres with
          | error e =>
            exact hchain
          | ok u =>
            dsimp only
            refine monoSt_trans hchain ?_
            refine ⟨⟨fun _ _ _ h => h, ?_, rfl⟩, rfl, rfl, rfl, rfl, rfl,
              le_refl _, [], by simp⟩
            intro id0 m0 h0
            show ∃ m', lookupA (setA stD.modules id ⟨stA.nextId, true⟩) id0 =
              some m' ∧ m'.exportsId = m0.exportsId
            by_cases hq : id0 = id
            · subst hq
              have hBmod : lookupA (setA stA.modules id0
                  ⟨stA.nextId, false⟩) id0 = some ⟨stA.nextId, false⟩ :=
                lookupA_setA_self _ _ _
              obtain ⟨m', hm', he'⟩ := hD.1.2.1 id0 _ hBmod
              rw [h0] at hm'
              obtain rfl := Option.some.inj hm'
              exact ⟨⟨stA.nextId, true⟩, lookupA_setA_self _ _ _, he'.symm⟩
            · rw [lookupA_setA_ne _ _ _ _ hq]
              exact ⟨m0, h0, rfl⟩

theorem findMatch_ok_cache {st : LoaderState} {r id : String}
    {st' : LoaderState} (h : findMatch st r = (.ok id, st')) :
    lookupA st'.matchesCache r = some id ∧ id ≠ "" := by
  unfold findMatch at h
  cases hl : lookupA st.matchesCache r with
  | none =>
    rw [hl] at h
    exact findMatchCompute_ok_cache h
  | some id0 =>
    rw [hl] at h
    dsimp only at h
    by_cases hid : id0 = ""
    · rw [if_pos hid] at h
      exact findMatchCompute_ok_cache h
    · rw [if_neg hid] at h
      have h1 := congrArg Prod.fst h
      have h2 := congrArg Prod.snd h
      simp only [] at h1 h2
      obtain rfl := Except.ok.inj h1
      subst h2
      exact ⟨hl, hid⟩

theorem runRequire_after_ok :
    ∀ {fuel : Nat} {st : LoaderState} {r : String} {e : Nat}
      {st₁ : LoaderState},
      runRequire fuel st r = (.ok e, st₁) →
      ∃ id, lookupA st₁.matchesCache r = some id ∧ id ≠ "" ∧
        ∃ m, lookupA st₁.modules id = some m ∧ m.exportsId = e := by
  intro fuel st r e st₁ h
  cases fuel with
  | zero =>
    simp only [runRequire, Prod.mk.injEq] at h
    cases h.1
  | succ fuel =>
    simp only [runRequire] at h
    rcases hfm : findMatch st r with ⟨res, stA⟩
    rw [hfm] at h
    cases res with
    | error msg =>
      simp only [Prod.mk.injEq] at h
      cases h.1
    | ok id =>
      dsimp only at h
      have hcache := findMatch_ok_cache hfm
      cases hmod : lookupA stA.modules id with
      | some m =>
        rw [hmod] at h
        dsimp only at h
        have h1 := congrArg Prod.fst h
        have h2 := congrArg Prod.snd h
        simp only [] at h1 h2
        obtain rfl := Except.ok.inj h1
        subst h2
        exact ⟨id, hcache.1, hcache.2, m, hmod, rfl⟩
      | none =>
        rw [hmod] at h
        dsimp only at h
        cases hreg : lookupA stA.registered id with
        | none =>
          rw [hreg] at h
          dsimp only at h
          simp only [Prod.mk.injEq] at h
          cases h.1
        | some cmds =>
          rw [hreg] at h
          dsimp only at h
          rcases hrc : runCmds (fun st p => runRequire fuel st p)
              stA.nextId cmds { stA with
                nextId := stA.nextId + 1,
                heap := setA stA.heap stA.nextId [],
                modules := setA stA.modules id ⟨stA.nextId, false⟩,
                invocations := stA.invocations ++ [id] } with ⟨cres, stD⟩
          rw [hrc] at h
          have hD : MonoSt ({ stA with
              nextId := stA.nextId + 1,
              heap := setA stA.heap stA.nextId [],
              modules := setA stA.modules id ⟨stA.nextId, false⟩,
              invocations := stA.invocations ++ [id] } : LoaderState) stD := by
            have h0 := runCmds_monoSt
              (fun st p => runRequire_monoSt fuel st p) stA.nextId cmds
              { stA with
                nextId := stA.nextId + 1,
                heap := setA stA.heap stA.nextId [],
                modules := setA stA.modules id ⟨stA.nextId, false⟩,
                invocations := stA.invocations ++ [id] }
            rw [hrc] at h0
            exact h0
          cases cres with
          | error e2 =>
            dsimp only at h
            simp only [Prod.mk.injEq] at h
            cases h.1
          | ok u =>
            dsimp only at h
            have h1 := congrArg Prod.fst h
            have h2 := congrArg Prod.snd h
            simp only [] at h1 h2
            obtain rfl := Except.ok.inj h1
            subst h2
            refine ⟨id, ?_, hcache.2, ⟨stA.nextId, true⟩,
              lookupA_setA_self _ _ _, rfl⟩
            show lookupA stD.matchesCache r = some id
            exact hD.1.1 r id hcache.2 hcache.1

/-- Interpreting a list of `define` calls (given as path–factory pairs). -/
theorem runOps_defines_fields (pairs : List (String × List FCmd))
    (st : LoaderState) :
    (runOps (pairs.map (fun q => Op.define q.1 q.2)) st).modules =
        st.modules ∧
      (runOps (pairs.map (fun q => Op.define q.1 q.2)) st).matchesCache =
        st.matchesCache := by
  induction pairs generalizing st with
  | nil => exact ⟨rfl, rfl⟩
  | cons q qs ih =>
    rw [List.map_cons]
    show (runOps _ (runOp st (Op.define q.1 q.2))).modules = _ ∧
      (runOps _ (runOp st (Op.define q.1 q.2))).matchesCache = _
    have hop : (runOp st (Op.define q.1 q.2)).modules = st.modules ∧
        (runOp st (Op.define q.1 q.2)).matchesCache = st.matchesCache := by
      unfold runOp
      dsimp only
      by_cases hr : (lookupA st.registered q.1).isSome
      · rw [if_pos hr]
        exact ⟨rfl, rfl⟩
      · rw [if_neg hr]
        exact ⟨rfl, rfl⟩
    obtain ⟨ha, hb⟩ := ih (runOp st (Op.define q.1 q.2))
    exact ⟨ha.trans hop.1, hb.trans hop.2⟩

/-- Claim C3: once `require(r)` has succeeded, returning the exports
object with identity `e`, every later `require(r)` returns the very same
exports object — both on the unchanged state and after any further
`define` calls — and leaves the state untouched, because the resolution
cache maps the raw request string to the resolved module id, the module
table already holds the instance, and neither is ever invalidated. -/
theorem C3_require_determinism :
    ∀ (fuel : Nat) (st : LoaderState) (r : String) (e : Nat)
      (st₁ : LoaderState) (pairs : List (String × List FCmd)) (fuel' : Nat),
      runRequire fuel st r = (.ok e, st₁) →
      runRequire (fuel' + 1)
          (runOps (pairs.map (fun q => Op.define q.1 q.2)) st₁) r =
        (.ok e, runOps (pairs.map (fun q => Op.define q.1 q.2)) st₁) := by
  intro fuel st r e st₁ pairs fuel' h
  obtain ⟨id, hc, hne, m, hm, hexp⟩ := runRequire_after_ok h
  obtain ⟨hmods, hmc⟩ := runOps_defines_fields pairs st₁
  have hc2 : lookupA (runOps (pairs.map (fun q => Op.define q.1 q.2))
      st₁).matchesCache r = some id := by rw [hmc]; exact hc
  have hm2 : lookupA (runOps (pairs.map (fun q => Op.define q.1 q.2))
      st₁).modules id = some m := by rw [hmods]; exact hm
  have hfm : findMatch (runOps (pairs.map (fun q => Op.define q.1 q.2)) st₁)
      r = (.ok id, runOps (pairs.map (fun q => Op.define q.1 q.2)) st₁) := by
    unfold findMatch
    rw [hc2]
    dsimp only
    rw [if_neg hne]
  simp only [runRequire, hfm]
  rw [hm2]
  dsimp only
  rw [hexp]

/-- Witness for C3: after `foo@1.0.0` is defined and required once, a
later require of the same request — with an unrelated `define` in
between — returns the same exports object id `0` and leaves the state
unchanged. -/
theorem C3_require_determinism_witness :
    runRequire 1
        (runOps ([("bar@2.0.0", ([] : List FCmd))].map
          (fun q => Op.define q.1 q.2))
          (runRequire 2 (runOps [Op.define "foo@1.0.0" []] initState)
            "foo@^1.0.0").2) "foo@^1.0.0" =
      (.ok 0, runOps ([("bar@2.0.0", ([] : List FCmd))].map
          (fun q => Op.define q.1 q.2))
          (runRequire 2 (runOps [Op.define "foo@1.0.0" []] initState)
            "foo@^1.0.0").2) :=
  C3_require_determinism 2 (runOps [Op.define "foo@1.0.0" []] initState)
    "foo@^1.0.0" 0 _ [("bar@2.0.0", [])] 0 (by rfl)

/-! ## The once-only invariant (claim C2) -/

theorem getBundle_loaderFrame (st : LoaderState) (url : String) :
    ((getBundle st url).2).registered = st.registered ∧
    ((getBundle st url).2).modules = st.modules ∧
    ((getBundle st url).2).matchesCache = st.matchesCache ∧
    ((getBundle st url).2).invocations = st.invocations := by
  unfold getBundle
  cases lookupA st.bundles url with
  | some b => exact ⟨rfl, rfl, rfl, rfl⟩
  | none => exact ⟨rfl, rfl, rfl, rfl⟩

theorem ensureBundle_loaderFrame (st : LoaderState) (url : String)
    (cb : Option Nat) :
    ((ensureBundle st url cb).2).registered = st.registered ∧
    ((ensureBundle st url cb).2).modules = st.modules ∧
    ((ensureBundle st url cb).2).matchesCache = st.matchesCache ∧
    ((ensureBundle st url cb).2).invocations = st.invocations := by
  unfold ensureBundle
  rcases hgb : getBundle st url with ⟨b, st1⟩
  have hf := getBundle_loaderFrame st url
  rw [hgb] at hf
  dsimp only
  by_cases hl : b.loaded
  · rw [if_pos hl]
    cases cb with
    | some c => exact hf
    | none => exact hf
  · rw [if_neg hl]
    cases cb with
    | some c => exact hf
    | none => exact hf

theorem scriptLoadEv_loaderFrame (st : LoaderState) (url : String) :
    (scriptLoadEv st url).registered = st.registered ∧
    (scriptLoadEv st url).modules = st.modules ∧
    (scriptLoadEv st url).matchesCache = st.matchesCache ∧
    (scriptLoadEv st url).invocations = st.invocations := by
  unfold scriptLoadEv
  cases lookupA st.bundles url with
  | none => exact ⟨rfl, rfl, rfl, rfl⟩
  | some b => exact ⟨rfl, rfl, rfl, rfl⟩

theorem scriptErrorEv_loaderFrame (st : LoaderState) (url : String) :
    (scriptErrorEv st url).registered = st.registered ∧
    (scriptErrorEv st url).modules = st.modules ∧
    (scriptErrorEv st url).matchesCache = st.matchesCache ∧
    (scriptErrorEv st url).invocations = st.invocations := by
  unfold scriptErrorEv
  cases lookupA st.bundles url with
  | none => exact ⟨rfl, rfl, rfl, rfl⟩
  | some b => exact ⟨rfl, rfl, rfl, rfl⟩

theorem inv_of_fields_eq {st st' : LoaderState}
    (hr : st'.registered = st.registered) (hm : st'.modules = st.modules)
    (hc : st'.matchesCache = st.matchesCache)
    (hi : st'.invocations = st.invocations) (h : Inv st) : Inv st' := by
  refine ⟨?_, ?_, ?_, ?_⟩
  · intro id
    rw [hi]
    exact h.1 id
  · intro id hmem
    rw [hm]
    exact h.2.1 id (hi ▸ hmem)
  · intro id hsome
    rw [hi]
    exact h.2.2.1 id (hm ▸ hsome)
  · intro r id hcr
    rw [hr]
    exact h.2.2.2 r id (hc ▸ hcr)

theorem isSome_setA {κ α : Type} [DecidableEq κ]
    {l : List (κ × α)} {k' : κ} (k : κ) (v : α)
    (h : (lookupA l k').isSome) : (lookupA (setA l k v) k').isSome := by
  by_cases hk : k' = k
  · subst hk
    rw [lookupA_setA_self]
    rfl
  · rw [lookupA_setA_ne _ _ _ _ hk]
    exact h

theorem inv_findMatch {st : LoaderState} (path : String) (hinv : Inv st) :
    Inv (findMatch st path).2 ∧
    (∀ id st', findMatch st path = (.ok id, st') →
      id ≠ "" ∧ (lookupA st.registered id).isSome) ∧
    (findMatch st path).2.registered = st.registered ∧
    (findMatch st path).2.modules = st.modules ∧
    (findMatch st path).2.invocations = st.invocations := by
  have hcompute : Inv (findMatchCompute st path).2 ∧
      (∀ id st', findMatchCompute st path = (.ok id, st') →
        id ≠ "" ∧ (lookupA st.registered id).isSome) ∧
      (findMatchCompute st path).2.registered = st.registered ∧
      (findMatchCompute st path).2.modules = st.modules ∧
      (findMatchCompute st path).2.invocations = st.invocations := by
    rcases findMatchCompute_cases st path with ⟨msg, hcase⟩ |
        ⟨id', hcase, hne, hreg⟩
    · rw [hcase]
      refine ⟨hinv, ?_, rfl, rfl, rfl⟩
      intro id st' h
      cases congrArg Prod.fst h
    · rw [hcase]
      refine ⟨?_, ?_, rfl, rfl, rfl⟩
      · refine ⟨hinv.1, hinv.2.1, hinv.2.2.1, ?_⟩
        intro r id hcr
        show id ≠ "" ∧ (lookupA st.registered id).isSome
        by_cases hrp : r = path
        · subst hrp
          rw [lookupA_setA_self] at hcr
          obtain rfl := Option.some.inj hcr
          exact ⟨hne, hreg⟩
        · rw [lookupA_setA_ne _ _ _ _ hrp] at hcr
          exact hinv.2.2.2 r id hcr
      · intro id st' h
        obtain rfl := Except.ok.inj (congrArg Prod.fst h)
        exact ⟨hne, hreg⟩
  unfold findMatch
  cases hl : lookupA st.matchesCache path with
  | none =>
    dsimp only
    exact hcompute
  | some id0 =>
    dsimp only
    by_cases hid : id0 = ""
    · rw [if_pos hid]
      exact hcompute
    · rw [if_neg hid]
      refine ⟨hinv, ?_, rfl, rfl, rfl⟩
      intro id st' h
      obtain rfl := Except.ok.inj (congrArg Prod.fst h)
      exact hinv.2.2.2 path id0 hl

theorem inv_heapSet (st : LoaderState) (eid : Nat) (k v : String)
    (h : Inv st) : Inv (heapSet st eid k v) := by
  unfold heapSet
  cases lookupA st.heap eid with
  | none => exact h
  | some obj => exact inv_of_fields_eq rfl rfl rfl rfl h

theorem inv_runCmds
    {req : LoaderState → String → Except String Nat × LoaderState}
    (hreq : ∀ st p, Inv st → Inv (req st p).2) (self : Nat) :
    ∀ (cmds : List FCmd) (st : LoaderState), Inv st →
      Inv (runCmds req self cmds st).2 := by
  intro cmds
  induction cmds with
  | nil => exact fun st h => h
  | cons c cs ih =>
    intro st h
    show Inv (match runCmd req self st c with
      | (.ok _, st) => runCmds req self cs st
      | (.error e, st) => (.error e, st)).2
    have hc : Inv (runCmd req self st c).2 := by
      cases c with
      | setExport k v => exact inv_heapSet st self k v h
      | requireMod p =>
        show Inv (match req st p with
          | (.ok _, st) => ((.ok () : Except String Unit), st)
          | (.error e, st) => (.error e, st)).2
        rcases hr : req st p with ⟨res, st'⟩
        have := hreq st p h
        rw [hr] at this
        cases res with
        | ok _ => exact this
        | error e => exact this
      | readFrom p k =>
        show Inv (match req st p with
          | (.ok rid, st) =>
              ((.ok () : Except String Unit),
                { st with trace := st.trace ++ [(rid, heapGet st rid k)] })
          | (.error e, st) => (.error e, st)).2
        rcases hr : req st p with ⟨res, st'⟩
        have := hreq st p h
        rw [hr] at this
        cases res with
        | ok rid => exact inv_of_fields_eq rfl rfl rfl rfl this
        | error e => exact this
    rcases hrc : runCmd req self st c with ⟨res, st'⟩
    rw [hrc] at hc
    cases res with
    | ok _ => exact ih st' hc
    | error e => exact hc

theorem inv_runRequire :
    ∀ (fuel : Nat) (st : LoaderState) (p : String), Inv st →
      Inv (runRequire fuel st p).2 := by
  intro fuel
  induction fuel with
  | zero => exact fun st p h => h
  | succ fuel ih =>
    intro st p hinv
    have hA := inv_findMatch p hinv
    simp only [runRequire]
    rcases hfm : findMatch st p with ⟨res, stA⟩
    have hfacts := hA
    rw [hfm] at hfacts
    obtain ⟨hinvA, hok, hregA, hmodsA, hinvoA⟩ := hfacts
    cases res with
    | error e => exact hinvA
    | ok id =>
      dsimp only
      have hidfacts := hok id stA rfl
      cases hmod : lookupA stA.modules id with
      | some m =>
        dsimp only
        exact hinvA
      | none =>
        dsimp only
        cases hreg : lookupA stA.registered id with
        | none =>
          exfalso
          rw [hregA] at hreg
          rw [hreg] at hidfacts
          exact absurd hidfacts.2 (by simp)
        | some cmds =>
          dsimp only
          have hnotin : id ∉ stA.invocations := by
            intro hmem
            have := hinvA.2.1 id hmem
            rw [hmod] at this
            exact absurd this (by simp)
          set stC : LoaderState := { stA with
            nextId := stA.nextId + 1,
            heap := setA stA.heap stA.nextId [],
            modules := setA stA.modules id ⟨stA.nextId, false⟩,
            invocations := stA.invocations ++ [id] } with hstC
          have hinvC : Inv stC := by
            refine ⟨?_, ?_, ?_, ?_⟩
            · intro id0
              show (stA.invocations ++ [id]).count id0 ≤ 1
              rw [List.count_append]
              by_cases hq : id0 = id
              · subst hq
                rw [List.count_eq_zero_of_not_mem hnotin]
                simp
              · have : [id].count id0 = 0 :=
                  List.count_eq_zero_of_not_mem (by simp [hq])
                rw [this]
                simpa using hinvA.1 id0
            · intro id0 hmem
              show (lookupA (setA stA.modules id ⟨stA.nextId, false⟩)
                id0).isSome
              rcases List.mem_append.mp hmem with hmem | hmem
              · exact isSome_setA _ _ (hinvA.2.1 id0 hmem)
              · obtain rfl : id0 = id := by simpa using hmem
                rw [lookupA_setA_self]
                rfl
            · intro id0 hsome
              show id0 ∈ stA.invocations ++ [id]
              by_cases hq : id0 = id
              · subst hq
                simp
              · rw [show (lookupA (setA stA.modules id ⟨stA.nextId, false⟩)
                    id0) = lookupA stA.modules id0 from
                  lookupA_setA_ne _ _ _ _ hq] at hsome
                exact List.mem_append.mpr (Or.inl (hinvA.2.2.1 id0 hsome))
            · intro r id0 hcr
              exact hinvA.2.2.2 r id0 hcr
          rcases hrc : runCmds (fun st p => runRequire fuel st p)
              stA.nextId cmds stC with ⟨cres, stD⟩
          have hinvD : Inv stD := by
            have h0 := inv_runCmds (fun st p => ih st p) stA.nextId cmds
              stC hinvC
            rw [hrc] at h0
            exact h0
          have hmonoD : MonoSt stC stD := by
            have h0 := runCmds_monoSt (fun st p => runRequire_monoSt fuel st p)
              stA.nextId cmds stC
            rw [hrc] at h0
            exact h0
          cases cres with
          | error e => exact hinvD
          | ok u =>
            dsimp only
            refine ⟨hinvD.1, ?_, ?_, hinvD.2.2.2⟩
            · intro id0 hmem
              show (lookupA (setA stD.modules id ⟨stA.nextId, true⟩)
                id0).isSome
              exact isSome_setA _ _ (hinvD.2.1 id0 hmem)
            · intro id0 hsome
              by_cases hq : id0 = id
              · subst hq
                obtain ⟨l, hl⟩ := hmonoD.2.2.2.2.2.2.2
                rw [hl]
                exact List.mem_append.mpr (Or.inl (by simp))
              · rw [show (lookupA (setA stD.modules id ⟨stA.nextId, true⟩)
                    id0) = lookupA stD.modules id0 from
                  lookupA_setA_ne _ _ _ _ hq] at hsome
                exact hinvD.2.2.1 id0 hsome

theorem inv_runOp (st : LoaderState) (op : Op) (h : Inv st) :
    Inv (runOp st op) := by
  cases op with
  | define p cmds =>
    show Inv (if (lookupA st.registered p).isSome then st
      else { st with registered := st.registered ++ [(p, cmds)] })
    by_cases hr : (lookupA st.registered p).isSome
    · rw [if_pos hr]
      exact h
    · rw [if_neg hr]
      refine ⟨h.1, h.2.1, h.2.2.1, ?_⟩
      intro r id hcr
      obtain ⟨hne, hsome⟩ := h.2.2.2 r id hcr
      refine ⟨hne, ?_⟩
      cases hl : lookupA st.registered id with
      | none => rw [hl] at hsome; cases hsome
      | some f =>
        show (lookupA (st.registered ++ [(p, cmds)]) id).isSome
        rw [lookupA_append_some _ hl]
        rfl
  | require p => exact inv_runRequire opFuel st p h
  | ensure url cb =>
    obtain ⟨h1, h2, h3, h4⟩ := ensureBundle_loaderFrame st url cb
    exact inv_of_fields_eq h1 h2 h3 h4 h
  | scriptLoad url =>
    obtain ⟨h1, h2, h3, h4⟩ := scriptLoadEv_loaderFrame st url
    exact inv_of_fields_eq h1 h2 h3 h4 h
  | scriptError url =>
    obtain ⟨h1, h2, h3, h4⟩ := scriptErrorEv_loaderFrame st url
    exact inv_of_fields_eq h1 h2 h3 h4 h

theorem inv_runOps : ∀ (ops : List Op) (st : LoaderState), Inv st →
    Inv (runOps ops st) := by
  intro ops
  induction ops with
  | nil => exact fun st h => h
  | cons op ops ih =>
    intro st h
    exact ih (runOp st op) (inv_runOp st op h)

theorem inv_initState : Inv initState := by
  refine ⟨?_, ?_, ?_, ?_⟩
  · intro id
    simp [initState]
  · intro id hmem
    simp [initState] at hmem
  · intro id hsome
    simp [initState, lookupA] at hsome
  · intro r id hcr
    simp [initState, lookupA] at hcr

theorem runOp_registered_mono {st : LoaderState} {p : String}
    {f : List FCmd} (op : Op) (h : lookupA st.registered p = some f) :
    lookupA (runOp st op).registered p = some f := by
  cases op with
  | define q g =>
    show lookupA (if (lookupA st.registered q).isSome then st
      else { st with registered := st.registered ++ [(q, g)] }).registered
        p = some f
    by_cases hr : (lookupA st.registered q).isSome
    · rw [if_pos hr]
      exact h
    · rw [if_neg hr]
      exact lookupA_append_some _ h
  | require q =>
    show lookupA ((runRequire opFuel st q).2).registered p = some f
    rw [(runRequire_monoSt opFuel st q).1.2.2]
    exact h
  | ensure url cb =>
    show lookupA ((ensureBundle st url cb).2).registered p = some f
    rw [(ensureBundle_loaderFrame st url cb).1]
    exact h
  | scriptLoad url =>
    show lookupA (scriptLoadEv st url).registered p = some f
    rw [(scriptLoadEv_loaderFrame st url).1]
    exact h
  | scriptError url =>
    show lookupA (scriptErrorEv st url).registered p = some f
    rw [(scriptErrorEv_loaderFrame st url).1]
    exact h

theorem runOps_registered_mono {st : LoaderState} {p : String}
    {f : List FCmd} (ops : List Op)
    (h : lookupA st.registered p = some f) :
    lookupA (runOps ops st).registered p = some f := by
  induction ops generalizing st with
  | nil => exact h
  | cons op ops ih => exact ih (runOp_registered_mono op h)

/-- Claim C2: `define(p, f1); define(p, f2)` leaves `f1` registered under
`p` (first-writer wins) and `f1` remains the registered factory under
every later operation; across any sequence of subsequent operations the
factory registered at `p` is invoked at most once, and exactly once as
soon as some `require` has resolved to `p` and instantiated it. -/
theorem C2_define_idempotent :
    ∀ (p : String) (f1 f2 : List FCmd) (ops : List Op),
      lookupA (runOps [Op.define p f1, Op.define p f2]
        initState).registered p = some f1 ∧
      lookupA (runOps ops (runOps [Op.define p f1, Op.define p f2]
        initState)).registered p = some f1 ∧
      (runOps ops (runOps [Op.define p f1, Op.define p f2]
        initState)).invocations.count p ≤ 1 ∧
      ((lookupA (runOps ops (runOps [Op.define p f1, Op.define p f2]
          initState)).modules p).isSome →
        (runOps ops (runOps [Op.define p f1, Op.define p f2]
          initState)).invocations.count p = 1) := by
  intro p f1 f2 ops
  have hreg2 : lookupA (runOps [Op.define p f1, Op.define p f2]
      initState).registered p = some f1 := by
    show lookupA (runOp (runOp initState (Op.define p f1))
      (Op.define p f2)).registered p = some f1
    have h1 : runOp initState (Op.define p f1) =
        { initState with registered := [] ++ [(p, f1)] } := by
      show (if (lookupA initState.registered p).isSome then initState
        else { initState with
          registered := initState.registered ++ [(p, f1)] }) = _
      rw [if_neg (by simp [initState, lookupA])]
      rfl
    rw [h1]
    have h2 : lookupA ([] ++ [(p, f1)] : List (String × List FCmd)) p =
        some f1 := by simp [lookupA]
    show lookupA (if (lookupA ([] ++ [(p, f1)] :
        List (String × List FCmd)) p).isSome then _
      else _ : LoaderState).registered p = some f1
    rw [if_pos (by rw [h2]; rfl)]
    exact h2
  have hinv : Inv (runOps ops (runOps [Op.define p f1, Op.define p f2]
      initState)) :=
    inv_runOps ops _ (inv_runOps [Op.define p f1, Op.define p f2] _
      inv_initState)
  refine ⟨hreg2, runOps_registered_mono ops hreg2, hinv.1 p, ?_⟩
  intro hsome
  have hmem := hinv.2.2.1 p hsome
  have hpos : 0 < (runOps ops (runOps [Op.define p f1, Op.define p f2]
      initState)).invocations.count p := List.count_pos_iff.mpr hmem
  have hle := hinv.1 p
  omega

/-- Witness for C2: `foo@1.0.0` defined twice with different factories
keeps the first; two requires that resolve to it invoke its factory
exactly once. -/
theorem C2_define_idempotent_witness :
    lookupA (runOps [Op.define "foo@1.0.0" [FCmd.setExport "v" "1"],
        Op.define "foo@1.0.0" [FCmd.setExport "v" "2"]]
      initState).registered "foo@1.0.0" = some [FCmd.setExport "v" "1"] ∧
    (runOps [Op.require "foo@^1.0.0", Op.require "foo@^1.0.0"]
        (runOps [Op.define "foo@1.0.0" [FCmd.setExport "v" "1"],
          Op.define "foo@1.0.0" [FCmd.setExport "v" "2"]]
          initState)).invocations.count "foo@1.0.0" = 1 :=
  ⟨(C2_define_idempotent "foo@1.0.0" [FCmd.setExport "v" "1"]
      [FCmd.setExport "v" "2"]
      [Op.require "foo@^1.0.0", Op.require "foo@^1.0.0"]).1,
    (C2_define_idempotent "foo@1.0.0" [FCmd.setExport "v" "1"]
      [FCmd.setExport "v" "2"]
      [Op.require "foo@^1.0.0", Op.require "foo@^1.0.0"]).2.2.2
      (by decide)⟩

/-! ## Cycle tolerance (claim C4) -/

theorem runCmds_setExports
    (req : LoaderState → String → Except String Nat × LoaderState)
    (self : Nat) :
    ∀ (asgn : List (String × String)) (st : LoaderState),
      ∃ st', runCmds req self
          (asgn.map (fun kv => FCmd.setExport kv.1 kv.2)) st =
        (.ok (), st') ∧ st'.trace = st.trace ∧ st'.modules = st.modules ∧
        st'.invocations = st.invocations := by
  intro asgn
  induction asgn with
  | nil => exact fun st => ⟨st, rfl, rfl, rfl, rfl⟩
  | cons kv asgn ih =>
    intro st
    obtain ⟨st', hok, htr, hm, hi⟩ := ih (heapSet st self kv.1 kv.2)
    have hfields : (heapSet st self kv.1 kv.2).trace = st.trace ∧
        (heapSet st self kv.1 kv.2).modules = st.modules ∧
        (heapSet st self kv.1 kv.2).invocations = st.invocations := by
      unfold heapSet
      cases lookupA st.heap self with
      | none => exact ⟨rfl, rfl, rfl⟩
      | some obj => exact ⟨rfl, rfl, rfl⟩
    refine ⟨st', ?_, htr.trans hfields.1, hm.trans hfields.2.1,
      hi.trans hfields.2.2⟩
    rw [List.map_cons]
    show (match runCmd req self st (FCmd.setExport kv.1 kv.2) with
      | (.ok _, st) => runCmds req self
          (asgn.map (fun kv => FCmd.setExport kv.1 kv.2)) st
      | (.error e, st) => (.error e, st)) = (.ok (), st')
    show (match ((.ok (), heapSet st self kv.1 kv.2) :
        Except String Unit × LoaderState) with
      | (.ok _, st) => runCmds req self
          (asgn.map (fun kv => FCmd.setExport kv.1 kv.2)) st
      | (.error e, st) => (.error e, st)) = (.ok (), st')
    exact hok

/-- Claim C4: for the mutually requiring modules `a@1.0.0` and
`b@1.0.0`, with arbitrary extra assignments in `a`'s factory after the
cyclic require, `require('a@^1.0.0')` returns without error.  `b`'s
factory observes, through its cyclic require of `a`, the very exports
object (identity `0`) that the outer require finally returns — inserted
into the module table before `a`'s factory ran — seeing the
already-assigned property `x` as `"1"` and the not-yet-assigned property
`y` as JS `undefined` (`none`), without error; both factories finish and
both modules end up loaded, each instantiated once. -/
theorem C4_cycle_tolerance :
    ∀ asgn : List (String × String),
      (runRequire 3 (cycleStart asgn) "a@^1.0.0").1 = .ok 0 ∧
      (runRequire 3 (cycleStart asgn) "a@^1.0.0").2.trace =
        [(0, some "1"), (0, none)] ∧
      lookupA (runRequire 3 (cycleStart asgn) "a@^1.0.0").2.modules
        "a@1.0.0" = some ⟨0, true⟩ ∧
      lookupA (runRequire 3 (cycleStart asgn) "a@^1.0.0").2.modules
        "b@1.0.0" = some ⟨1, true⟩ ∧
      (runRequire 3 (cycleStart asgn) "a@^1.0.0").2.invocations =
        ["a@1.0.0", "b@1.0.0"] := by
  intro asgn
  obtain ⟨stE, hok, htr, hmods, hinvs⟩ :=
    runCmds_setExports (fun s q => runRequire 2 s q) 0 asgn
      { registered := [("a@1.0.0", cycleFA asgn), ("b@1.0.0", cycleFB)],
        modules := [("b@1.0.0", ⟨1, true⟩), ("a@1.0.0", ⟨0, false⟩)],
        matchesCache := [("b@^1.0.0", "b@1.0.0"), ("a@^1.0.0", "a@1.0.0")],
        bundles := [],
        heap := [(1, []), (0, [("y", "2"), ("x", "1")])],
        promises := [],
        nextId := 2,
        scriptsInjected := [],
        invocations := ["a@1.0.0", "b@1.0.0"],
        evLog := [],
        trace := [(0, some "1"), (0, none)],
        ensureReturns := [] }
  have h1 : runRequire 3 (cycleStart asgn) "a@^1.0.0" =
      (match runCmds (fun s q => runRequire 2 s q) 0
          (asgn.map (fun kv => FCmd.setExport kv.1 kv.2))
          { registered := [("a@1.0.0", cycleFA asgn), ("b@1.0.0", cycleFB)],
            modules := [("b@1.0.0", ⟨1, true⟩), ("a@1.0.0", ⟨0, false⟩)],
            matchesCache :=
              [("b@^1.0.0", "b@1.0.0"), ("a@^1.0.0", "a@1.0.0")],
            bundles := [],
            heap := [(1, []), (0, [("y", "2"), ("x", "1")])],
            promises := [],
            nextId := 2,
            scriptsInjected := [],
            invocations := ["a@1.0.0", "b@1.0.0"],
            evLog := [],
            trace := [(0, some "1"), (0, none)],
            ensureReturns := [] } with
        | (.ok _, st) =>
          ((.ok 0 : Except String Nat),
            { st with modules := setA st.modules "a@1.0.0" ⟨0, true⟩ })
        | (.error e, st) => (.error e, st)) := rfl
  rw [h1, hok]
  dsimp only
  refine ⟨rfl, ?_, ?_, ?_, ?_⟩
  · show stE.trace = _
    rw [htr]
  · show lookupA (setA stE.modules "a@1.0.0" ⟨0, true⟩) "a@1.0.0" = _
    rw [hmods]
    rfl
  · show lookupA (setA stE.modules "a@1.0.0" ⟨0, true⟩) "b@1.0.0" = _
    rw [hmods]
    rfl
  · show stE.invocations = _
    rw [hinvs]

/-! ## Registry keys (claim C10) -/

theorem definedPaths_cons (op : Op) (ops : List Op) :
    definedPaths (op :: ops) =
      (match op with
        | Op.define p _ => p :: definedPaths ops
        | _ => definedPaths ops) := by
  cases op <;> rfl

theorem runOps_registered_sub :
    ∀ (ops : List Op) (st : LoaderState) (key : String),
      (lookupA (runOps ops st).registered key).isSome →
      (lookupA st.registered key).isSome ∨ key ∈ definedPaths ops := by
  intro ops
  induction ops with
  | nil => exact fun st key h => Or.inl h
  | cons op ops ih =>
    intro st key h
    rcases ih (runOp st op) key h with h' | h'
    · cases op with
      | define p f =>
        rw [show runOp st (Op.define p f) =
            (if (lookupA st.registered p).isSome then st
              else { st with registered := st.registered ++ [(p, f)] })
          from rfl] at h'
        by_cases hr : (lookupA st.registered p).isSome
        · rw [if_pos hr] at h'
          exact Or.inl h'
        · rw [if_neg hr] at h'
          rcases lookupA_append_isSome h' with h2 | h2
          · exact Or.inl h2
          · right
            have hk : p = key := by
              by_cases hk : p = key
              · exact hk
              · exfalso
                rw [show (lookupA ([(p, f)] : List (String × List FCmd)) key) =
                    none from by simp [lookupA, hk]] at h2
                cases h2
            rw [definedPaths_cons]
            dsimp only
            exact hk ▸ List.mem_cons_self p _
      | require p =>
        rw [show (runOp st (Op.require p)).registered =
            ((runRequire opFuel st p).2).registered from rfl,
          (runRequire_monoSt opFuel st p).1.2.2] at h'
        exact Or.inl h'
      | ensure url cb =>
        rw [show (runOp st (Op.ensure url cb)).registered =
            ((ensureBundle st url cb).2).registered from rfl,
          (ensureBundle_loaderFrame st url cb).1] at h'
        exact Or.inl h'
      | scriptLoad url =>
        rw [show (runOp st (Op.scriptLoad url)).registered =
            (scriptLoadEv st url).registered from rfl,
          (scriptLoadEv_loaderFrame st url).1] at h'
        exact Or.inl h'
      | scriptError url =>
        rw [show (runOp st (Op.scriptError url)).registered =
            (scriptErrorEv st url).registered from rfl,
          (scriptErrorEv_loaderFrame st url).1] at h'
        exact Or.inl h'
    · right
      rw [definedPaths_cons]
      cases op with
      | define p f => exact List.mem_cons_of_mem p h'
      | require p => exact h'
      | ensure url cb => exact h'
      | scriptLoad url => exact h'
      | scriptError url => exact h'

/-- Claim C10, counterexample: `define` inserts its path argument
verbatim, so after `define("garbage", f)` the registry holds the key
`"garbage"`, which is not a canonical `VersionedPath` at all — it does
not even parse. -/
theorem C10_registry_key_cex :
    lookupA (runOps [Op.define "garbage" []] initState).registered
      "garbage" = some [] ∧
    parsePath "garbage" = none := by
  constructor
  · rfl
  · rfl

/-- Claim C10, amended: the registry's keys are always a subset of the
paths passed verbatim to `define`; `require` and `ensureBundle` never
add registry keys.  Hence the registry-key invariant holds exactly when
every `define` call supplies a canonical exact-version path — `define`
performs no validation, and an arbitrary string such as `"garbage"`
becomes a non-parsing registry key. -/
theorem C10_registry_keys_amended :
    (∀ (ops : List Op) (key : String),
      (lookupA (runOps ops initState).registered key).isSome →
      key ∈ definedPaths ops) ∧
    (∀ (ops : List Op),
      (∀ p ∈ definedPaths ops, CanonicalExact p) →
      ∀ key, (lookupA (runOps ops initState).registered key).isSome →
        CanonicalExact key) := by
  have h1 : ∀ (ops : List Op) (key : String),
      (lookupA (runOps ops initState).registered key).isSome →
      key ∈ definedPaths ops := by
    intro ops key h
    rcases runOps_registered_sub ops initState key h with h' | h'
    · rw [show (lookupA initState.registered key) = none from rfl] at h'
      cases h'
    · exact h'
  exact ⟨h1, fun ops hcanon key h => hcanon key (h1 ops key h)⟩

/-- Witness for the amended C10: with the single canonical define
`foo@1.2.3`, the registry key is among the defined paths and canonical. -/
theorem C10_registry_keys_amended_witness :
    "foo@1.2.3" ∈ definedPaths [Op.define "foo@1.2.3" []] ∧
    CanonicalExact "foo@1.2.3" :=
  ⟨C10_registry_keys_amended.1 [Op.define "foo@1.2.3" []] "foo@1.2.3"
      (by rfl),
    C10_registry_keys_amended.2 [Op.define "foo@1.2.3" []]
      (by
        intro p hp
        rw [show definedPaths [Op.define "foo@1.2.3" []] = ["foo@1.2.3"]
          from rfl] at hp
        obtain rfl : p = "foo@1.2.3" := by simpa using hp
        exact ⟨⟨"foo", "1.2.3", none⟩, by decide, by decide⟩)
      "foo@1.2.3" (by rfl)⟩

/-! ## Self-reference semver path (claim C9) -/

theorem exceptBind_ok {ε α β : Type} (a : α) (f : α → Except ε β) :
    (Except.ok a >>= f : Except ε β) = f a := rfl

theorem exceptPureBind {ε α β : Type} (a : α) (f : α → Except ε β) :
    ((pure a : Except ε α) >>= f) = f a := rfl

/-- Claim C9: whenever the issuer and the target of a rewritten require
are the same package (equal `name` fields), `getModuleSemverPath` emits
`name@~exactVersion/modPath` — the tilde range over the target's exact
version — no matter what range (if any) the issuer's dependency list
declares under its own name, since the quantification ranges over every
filesystem and hence every dependency list. -/
theorem C9_self_reference :
    ∀ (fs : FS) (request issuer rootPath issuerPath : List String)
      (rootPackage issuerPackage : Pkg),
      findRoot fs request = .ok rootPath →
      getPackage fs rootPath = .ok rootPackage →
      findRoot fs issuer = .ok issuerPath →
      getPackage fs issuer = .ok issuerPackage →
      issuerPackage.name = rootPackage.name →
      getModuleSemverPath fs request issuer =
        .ok (if "/".intercalate (request.drop rootPath.length) = "" then
            rootPackage.name ++ "@" ++ ("~" ++ rootPackage.version)
          else
            rootPackage.name ++ "@" ++ ("~" ++ rootPackage.version) ++ "/" ++
              "/".intercalate (request.drop rootPath.length)) := by
  intro fs request issuer rootPath issuerPath rootPackage issuerPackage
    h1 h2 h3 h4 h5
  unfold getModuleSemverPath
  simp only [h1, h2, h3, h4, exceptBind_ok]
  rw [if_pos h5]
  rfl

/-- Witness for C9: the `acme@1.4.2` package requiring its own file
`lib/other.js` from `lib/m.js` yields `acme@~1.4.2/lib/other.js`, even
though the package declares `"acme": "^9.9.9"` in its dependencies. -/
theorem C9_self_reference_witness :
    getModuleSemverPath
      ⟨[(["home", "proj", "node_modules", "acme"],
        ⟨"acme", "1.4.2", false, [("acme", "^9.9.9")]⟩)], ["home", "proj"]⟩
      ["home", "proj", "node_modules", "acme", "lib", "other.js"]
      ["home", "proj", "node_modules", "acme", "lib", "m.js"] =
    .ok (if "/".intercalate
        (["home", "proj", "node_modules", "acme", "lib", "other.js"].drop
          ["home", "proj", "node_modules", "acme"].length) = "" then
        "acme" ++ "@" ++ ("~" ++ "1.4.2")
      else
        "acme" ++ "@" ++ ("~" ++ "1.4.2") ++ "/" ++
          "/".intercalate
            (["home", "proj", "node_modules", "acme", "lib", "other.js"].drop
              ["home", "proj", "node_modules", "acme"].length)) :=
  C9_self_reference
    ⟨[(["home", "proj", "node_modules", "acme"],
      ⟨"acme", "1.4.2", false, [("acme", "^9.9.9")]⟩)], ["home", "proj"]⟩
    ["home", "proj", "node_modules", "acme", "lib", "other.js"]
    ["home", "proj", "node_modules", "acme", "lib", "m.js"]
    ["home", "proj", "node_modules", "acme"]
    ["home", "proj", "node_modules", "acme"]
    ⟨"acme", "1.4.2", false, [("acme", "^9.9.9")]⟩
    ⟨"acme", "1.4.2", false, [("acme", "^9.9.9")]⟩
    (by rfl) (by rfl) (by rfl) (by rfl) (by rfl)

/-! ## Async-chunk rewriting (claim C7) -/

theorem stripLit_append : ∀ (p cs : List Char), stripLit p (p ++ cs) = some cs
  | [], _ => rfl
  | c :: p, cs => by
    show (if c = c then stripLit p (p ++ cs) else none) = some cs
    rw [if_pos rfl]
    exact stripLit_append p cs

theorem takeWhile_append_all (p : Char → Bool) :
    ∀ (l1 l2 : List Char), (∀ c ∈ l1, p c = true) →
      (l1 ++ l2).takeWhile p = l1 ++ l2.takeWhile p
  | [], l2, _ => rfl
  | c :: l1, l2, h => by
    rw [List.cons_append,
      List.takeWhile_cons_of_pos (h c (List.mem_cons_self c l1)),
      takeWhile_append_all p l1 l2 (fun c hc => h c (List.mem_cons_of_mem _ hc)),
      List.cons_append]

theorem matchEnsureAt_lit (d : List Char) (hne : d ≠ [])
    (hdig : ∀ c ∈ d, c.isDigit = true) :
    matchEnsureAt ("__webpack_require__".toList ++
        '.' :: 'e' :: '(' :: (d ++ [')'])) = some (d, [')']) := by
  unfold matchEnsureAt
  rw [stripLit_append]
  show (if jsDot '.' then
      let ds := (d ++ [')']).takeWhile Char.isDigit
      if ds.isEmpty then none
      else some (ds, (d ++ [')']).drop ds.length)
    else none) = some (d, [')'])
  rw [if_pos (show jsDot '.' = true from rfl)]
  have hds : (d ++ [')']).takeWhile Char.isDigit = d := by
    rw [takeWhile_append_all Char.isDigit d [')'] hdig,
      show List.takeWhile Char.isDigit [')'] = [] from rfl, List.append_nil]
  dsimp only
  rw [hds]
  have hemp : d.isEmpty = false := by
    cases d with
    | nil => exact absurd rfl hne
    | cons c cs => rfl
  rw [hemp]
  show some (d, (d ++ [')']).drop d.length) = some (d, [')'])
  rw [List.drop_left]

theorem findEnsure_cons_match (c : Char) (cs d r : List Char)
    (h : matchEnsureAt (c :: cs) = some (d, r)) :
    findEnsure (c :: cs) = some ([], d, r) := by
  unfold findEnsure
  rw [h]

theorem findEnsure_lit (d : List Char) (hne : d ≠ [])
    (hdig : ∀ c ∈ d, c.isDigit = true) :
    findEnsure ("__webpack_require__".toList ++
        '.' :: 'e' :: '(' :: (d ++ [')'])) = some ([], d, [')']) := by
  have hw : "__webpack_require__".toList ++ '.' :: 'e' :: '(' :: (d ++ [')']) =
      '_' :: ("_webpack_require__".toList ++ '.' :: 'e' :: '(' :: (d ++ [')'])) :=
    rfl
  rw [hw]
  exact findEnsure_cons_match _ _ _ _ (hw ▸ matchEnsureAt_lit d hne hdig)

theorem foldl_fileName_miss (cid : String) :
    ∀ (chunks : List Chunk) (acc : String), (∀ c ∈ chunks, c.id ≠ cid) →
      chunks.foldl (fun acc c => if c.id = cid then chunkFile c else acc) acc =
        acc
  | [], _, _ => rfl
  | c :: chunks, acc, h => by
    show List.foldl _ (if c.id = cid then chunkFile c else acc) chunks = acc
    rw [if_neg (h c (List.mem_cons_self c chunks))]
    exact foldl_fileName_miss cid chunks acc
      (fun c hc => h c (List.mem_cons_of_mem _ hc))

theorem handleEnsureGo_fix (pp : String) (chunks : List Chunk) :
    ∀ (fuel : Nat) (s : String), findEnsure s.toList = none →
      handleEnsureGo pp chunks fuel s = s
  | 0, _, _ => rfl
  | fuel + 1, s, h => by
    show (match findEnsure s.toList with
      | none => s
      | some (before, ds, _rest) => _) = s
    rw [h]

/-- Claim C7, counterexample: `_handleEnsure` never fails.  When the
referenced chunk id (here `5`) matches no chunk of the compilation (the
only chunk has id `0`), the rewriter still rewrites the reference — the
file-name accumulator simply stays `""` — and returns the rewritten
source instead of raising any error. -/
theorem C7_unresolvable_chunk_cex :
    handleEnsure "/static/" [⟨"0", ["main.js"]⟩] "__webpack_require__.e(5)" =
      "__webpack_require__.e('/static/')" ∧
    (∀ c ∈ ([⟨"0", ["main.js"]⟩] : List Chunk), c.id ≠ "5") := by
  exact ⟨rfl, by decide⟩

/-- Claim C7, amended: for every async-chunk reference
`__webpack_require__.e(N)` whose digit string `N` matches no chunk of
the compilation, `_handleEnsure` does not fail the build; it totally
rewrites the reference to `__webpack_require__.e('<publicPath>')` with
an empty chunk file name and returns normally. -/
theorem C7_rewrite_amended :
    ∀ (digits : String) (chunks : List Chunk),
      digits.toList ≠ [] →
      (∀ c ∈ digits.toList, c.isDigit = true) →
      (∀ c ∈ chunks, c.id ≠ digits) →
      handleEnsure "/static/" chunks
          ("__webpack_require__.e(" ++ digits ++ ")") =
        "__webpack_require__.e('/static/')" := by
  intro digits chunks hne hdig hmiss
  have hsrc : ("__webpack_require__.e(" ++ digits ++ ")").toList =
      "__webpack_require__".toList ++
        '.' :: 'e' :: '(' :: (digits.toList ++ [')']) := by
    show ("__webpack_require__.e(" ++ digits ++ ")").data = _
    rw [String.data_append, String.data_append]
    show ("__webpack_require__".data ++ ['.', 'e', '(']) ++ digits.data ++ [')'] =
      _
    rw [List.append_assoc, List.append_assoc]
    rfl
  have hfind := findEnsure_lit digits.toList hne hdig
  rw [← hsrc] at hfind
  show handleEnsureGo "/static/" chunks
      (("__webpack_require__.e(" ++ digits ++ ")").length + 1)
      ("__webpack_require__.e(" ++ digits ++ ")") = _
  rw [show handleEnsureGo "/static/" chunks
      (("__webpack_require__.e(" ++ digits ++ ")").length + 1)
      ("__webpack_require__.e(" ++ digits ++ ")") =
    (match findEnsure ("__webpack_require__.e(" ++ digits ++ ")").toList with
      | none => ("__webpack_require__.e(" ++ digits ++ ")")
      | some (before, ds, rest) =>
        let chunkId : String := ⟨ds⟩
        let fileName := chunks.foldl
          (fun acc c => if c.id = chunkId then chunkFile c else acc) ""
        let source' : String :=
          (⟨before⟩ : String) ++ "__webpack_require__.e('" ++ "/static/" ++
            fileName ++ "'" ++ (⟨rest⟩ : String)
        handleEnsureGo "/static/" chunks
          ("__webpack_require__.e(" ++ digits ++ ")").length source')
    from rfl]
  rw [hfind]
  dsimp only
  rw [foldl_fileName_miss (⟨digits.toList⟩ : String) chunks "" hmiss]
  rw [show ((⟨[]⟩ : String) ++ "__webpack_require__.e('" ++ "/static/" ++ "" ++
      "'" ++ (⟨[')']⟩ : String)) = "__webpack_require__.e('/static/')" from rfl]
  exact handleEnsureGo_fix "/static/" chunks _ _ rfl

/-- Witness for the amended C7: digit string `5` against a compilation
whose only chunk has id `0`. -/
theorem C7_rewrite_amended_witness :
    ("5" : String).toList ≠ [] ∧
    (∀ c ∈ ("5" : String).toList, c.isDigit = true) ∧
    (∀ c ∈ ([⟨"0", ["main.js"]⟩] : List Chunk), c.id ≠ "5") ∧
    handleEnsure "/static/" [⟨"0", ["main.js"]⟩]
        ("__webpack_require__.e(" ++ "5" ++ ")") =
      "__webpack_require__.e('/static/')" :=
  ⟨by decide, by decide, by decide,
    C7_rewrite_amended "5" [⟨"0", ["main.js"]⟩] (by decide) (by decide)
      (by decide)⟩

/-! ## Bundle machinery (claims C5 and C6) -/

theorem runOps_append : ∀ (l1 l2 : List Op) (st : LoaderState),
    runOps (l1 ++ l2) st = runOps l2 (runOps l1 st)
  | [], _, _ => rfl
  | op :: l1, l2, st => runOps_append l1 l2 (runOp st op)

theorem collectCbs_append (url : String) :
    ∀ (l1 l2 : List Op),
      collectCbs url (l1 ++ l2) = collectCbs url l1 ++ collectCbs url l2
  | [], _ => rfl
  | op :: l1, l2 => by
    cases op with
    | ensure u cb =>
      cases cb with
      | some c =>
        show (if u = url then c :: collectCbs url (l1 ++ l2)
            else collectCbs url (l1 ++ l2)) =
          (if u = url then c :: collectCbs url l1 else collectCbs url l1) ++
            collectCbs url l2
        by_cases hu : u = url
        · rw [if_pos hu, if_pos hu, collectCbs_append url l1 l2, List.cons_append]
        · rw [if_neg hu, if_neg hu, collectCbs_append url l1 l2]
      | none => exact collectCbs_append url l1 l2
    | define p f => exact collectCbs_append url l1 l2
    | require p => exact collectCbs_append url l1 l2
    | scriptLoad u => exact collectCbs_append url l1 l2
    | scriptError u => exact collectCbs_append url l1 l2

theorem lookupA_settleProm_self :
    ∀ (ps : List (Nat × PromiseSt)) (pid : Nat) (s : PromiseSt),
      lookupA ps pid = some PromiseSt.pending →
      lookupA (settleProm ps pid s) pid = some s
  | [], _, _, h => by cases h
  | (k, v) :: ps, pid, s, h => by
    unfold settleProm
    rw [List.map_cons]
    by_cases hk : k = pid
    · subst hk
      have hv : v = PromiseSt.pending := by
        have h2 : (if k = k then some v else lookupA ps k) =
            some PromiseSt.pending := h
        rw [if_pos rfl] at h2
        exact Option.some.inj h2
      subst hv
      rw [if_pos ⟨rfl, rfl⟩]
      show (if k = k then some s else _) = some s
      rw [if_pos rfl]
    · have h' : lookupA ps pid = some PromiseSt.pending := by
        have h2 : (if k = pid then some v else lookupA ps pid) =
            some PromiseSt.pending := h
        rwa [if_neg hk] at h2
      rw [if_neg (fun hc => hk hc.1 :
        ¬((k, v).1 = pid ∧ (k, v).2 = PromiseSt.pending))]
      show (if k = pid then some v else
        lookupA (List.map _ ps) pid) = some s
      rw [if_neg hk]
      exact lookupA_settleProm_self ps pid s h'

theorem lookupA_settleProm_rejected :
    ∀ (ps : List (Nat × PromiseSt)) (pid pid' : Nat) (s : PromiseSt),
      lookupA ps pid = some PromiseSt.rejected →
      lookupA (settleProm ps pid' s) pid = some PromiseSt.rejected
  | [], _, _, _, h => by cases h
  | (k, v) :: ps, pid, pid', s, h => by
    unfold settleProm
    rw [List.map_cons]
    by_cases hc : (k, v).1 = pid' ∧ (k, v).2 = PromiseSt.pending
    · rw [if_pos hc]
      by_cases hp : pid' = pid
      · exfalso
        have hv : v = PromiseSt.rejected := by
          have h2 : (if k = pid then some v else lookupA ps pid) =
              some PromiseSt.rejected := h
          rw [if_pos (hc.1.trans hp)] at h2
          exact Option.some.inj h2
        rw [show (k, v).2 = v from rfl, hv] at hc
        cases hc.2
      · show (if pid' = pid then some s else
          lookupA (List.map _ ps) pid) = some PromiseSt.rejected
        rw [if_neg hp]
        have h' : lookupA ps pid = some PromiseSt.rejected := by
          have h2 : (if k = pid then some v else lookupA ps pid) =
              some PromiseSt.rejected := h
          rwa [if_neg (show ¬k = pid from fun hkp => hp (hc.1.symm.trans hkp))]
            at h2
        exact lookupA_settleProm_rejected ps pid pid' s h'
    · rw [if_neg hc]
      by_cases hk : k = pid
      · have h2 : (if k = pid then some v else lookupA ps pid) =
            some PromiseSt.rejected := h
        rw [if_pos hk] at h2
        show (if k = pid then some v else _) = some PromiseSt.rejected
        rw [if_pos hk]
        exact h2
      · have h2 : (if k = pid then some v else lookupA ps pid) =
            some PromiseSt.rejected := h
        rw [if_neg hk] at h2
        show (if k = pid then some v else
          lookupA (List.map _ ps) pid) = some PromiseSt.rejected
        rw [if_neg hk]
        exact lookupA_settleProm_rejected ps pid pid' s h2

theorem ensureBundle_existing (st : LoaderState) (u : String) (b : BundleRec)
    (hb : lookupA st.bundles u = some b) (hl : b.loaded = false) :
    (∀ c, ensureBundle st u (some c) =
      (b.promiseId, { st with
        bundles := setA st.bundles u { b with callbacks := b.callbacks ++ [c] },
        ensureReturns := st.ensureReturns ++ [(u, b.promiseId)] })) ∧
    ensureBundle st u none =
      (b.promiseId,
        { st with ensureReturns := st.ensureReturns ++ [(u, b.promiseId)] }) := by
  have hg : getBundle st u = (b, st) := by
    unfold getBundle
    rw [hb]
  have hnl : ¬b.loaded = true := by
    rw [hl]
    exact Bool.false_ne_true
  constructor
  · intro c
    unfold ensureBundle
    rw [hg]
    dsimp only
    rw [if_neg hnl]
  · unfold ensureBundle
    rw [hg]
    dsimp only
    rw [if_neg hnl]

theorem ensureBundle_existing_loaded (st : LoaderState) (u : String)
    (b : BundleRec) (hb : lookupA st.bundles u = some b)
    (hl : b.loaded = true) :
    (∀ c, ensureBundle st u (some c) =
      (st.nextId, { st with
        nextId := st.nextId + 1,
        promises := (st.nextId, PromiseSt.resolved) :: st.promises,
        evLog := st.evLog ++ [LogEv.invoked u c],
        ensureReturns := st.ensureReturns ++ [(u, st.nextId)] })) ∧
    ensureBundle st u none =
      (st.nextId, { st with
        nextId := st.nextId + 1,
        promises := (st.nextId, PromiseSt.resolved) :: st.promises,
        ensureReturns := st.ensureReturns ++ [(u, st.nextId)] }) := by
  have hg : getBundle st u = (b, st) := by
    unfold getBundle
    rw [hb]
  constructor
  · intro c
    unfold ensureBundle
    rw [hg]
    dsimp only
    rw [if_pos hl]
  · unfold ensureBundle
    rw [hg]
    dsimp only
    rw [if_pos hl]

theorem ensureBundle_fresh (st : LoaderState) (u : String)
    (hb : lookupA st.bundles u = none) :
    (∀ c, ensureBundle st u (some c) =
      (st.nextId, { st with
        nextId := st.nextId + 1,
        promises := (st.nextId, PromiseSt.pending) :: st.promises,
        scriptsInjected := st.scriptsInjected ++ [u],
        bundles := setA (setA st.bundles u ⟨false, [], st.nextId⟩) u
          ⟨false, [c], st.nextId⟩,
        ensureReturns := st.ensureReturns ++ [(u, st.nextId)] })) ∧
    ensureBundle st u none =
      (st.nextId, { st with
        nextId := st.nextId + 1,
        promises := (st.nextId, PromiseSt.pending) :: st.promises,
        scriptsInjected := st.scriptsInjected ++ [u],
        bundles := setA st.bundles u ⟨false, [], st.nextId⟩,
        ensureReturns := st.ensureReturns ++ [(u, st.nextId)] }) := by
  have hg : getBundle st u = (⟨false, [], st.nextId⟩, { st with
      nextId := st.nextId + 1,
      promises := (st.nextId, PromiseSt.pending) :: st.promises,
      scriptsInjected := st.scriptsInjected ++ [u],
      bundles := setA st.bundles u ⟨false, [], st.nextId⟩ }) := by
    unfold getBundle
    rw [hb]
  constructor
  · intro c
    unfold ensureBundle
    rw [hg]
    dsimp only
    rw [if_neg Bool.false_ne_true]
    rfl
  · unfold ensureBundle
    rw [hg]
    dsimp only
    rw [if_neg Bool.false_ne_true]

theorem scriptLoadEv_some (st : LoaderState) (url : String) (b : BundleRec)
    (hb : lookupA st.bundles url = some b) :
    scriptLoadEv st url = { st with
      evLog := st.evLog ++ b.callbacks.map (LogEv.invoked url) ++
        [LogEv.promResolved b.promiseId],
      bundles := setA st.bundles url { b with callbacks := [], loaded := true },
      promises := settleProm st.promises b.promiseId PromiseSt.resolved } := by
  unfold scriptLoadEv
  rw [hb]

theorem scriptErrorEv_some (st : LoaderState) (url : String) (b : BundleRec)
    (hb : lookupA st.bundles url = some b) :
    scriptErrorEv st url = { st with
      evLog := st.evLog ++ [LogEv.promRejected b.promiseId],
      promises := settleProm st.promises b.promiseId PromiseSt.rejected } := by
  unfold scriptErrorEv
  rw [hb]

theorem count_snoc_self (l : List String) (u : String) :
    (l ++ [u]).count u = l.count u + 1 := by
  rw [List.count_append]
  simp [List.count_singleton]

theorem count_snoc_ne (l : List String) (u v : String) (h : u ≠ v) :
    (l ++ [u]).count v = l.count v := by
  rw [List.count_append]
  simp [List.count_cons, h]

theorem collectCbs_snoc_ensure_ne (url u : String) (cb : Option Nat)
    (ops : List Op) (hq : u ≠ url) :
    collectCbs url (ops ++ [Op.ensure u cb]) = collectCbs url ops := by
  rw [collectCbs_append url]
  cases cb with
  | some c =>
    show collectCbs url ops ++
      (if u = url then c :: collectCbs url [] else collectCbs url []) = _
    rw [if_neg hq]
    exact List.append_nil _
  | none => exact List.append_nil _

theorem collectCbs_snoc_ensure_self (u : String) (c : Nat) (ops : List Op) :
    collectCbs u (ops ++ [Op.ensure u (some c)]) = collectCbs u ops ++ [c] := by
  rw [collectCbs_append u]
  show collectCbs u ops ++
    (if u = u then c :: collectCbs u [] else collectCbs u []) = _
  rw [if_pos rfl]
  rfl

theorem collectCbs_snoc_other (url : String) (op : Op) (ops : List Op)
    (h : ∀ u c, op ≠ Op.ensure u (some c)) :
    collectCbs url (ops ++ [op]) = collectCbs url ops := by
  rw [collectCbs_append url]
  cases op with
  | ensure u cb =>
    cases cb with
    | some c => exact absurd rfl (h u c)
    | none => exact List.append_nil _
  | define p f => exact List.append_nil _
  | require p => exact List.append_nil _
  | scriptLoad u => exact List.append_nil _
  | scriptError u => exact List.append_nil _

theorem noLoadSt_of_fields (ops ops' : List Op) (st st' : LoaderState)
    (hev : st'.evLog = st.evLog) (hpr : st'.promises = st.promises)
    (hbu : st'.bundles = st.bundles)
    (her : st'.ensureReturns = st.ensureReturns)
    (hni : st.nextId ≤ st'.nextId)
    (hcb : ∀ url, collectCbs url ops' = collectCbs url ops)
    (h : NoLoadSt ops st) : NoLoadSt ops' st' := by
  obtain ⟨h1, h2, h3, h4⟩ := h
  refine ⟨hev.trans h1, ?_, ?_, ?_⟩
  · rw [hpr]
    exact h2
  · intro url hurl
    rw [hbu] at hurl
    obtain ⟨g1, g2⟩ := h3 url hurl
    rw [hcb url, her]
    exact ⟨g1, g2⟩
  · intro url b hb
    rw [hbu] at hb
    obtain ⟨g1, g2, g3, g4, g5⟩ := h4 url b hb
    rw [hcb url, hpr, her]
    exact ⟨g1, g2, g3, Nat.lt_of_lt_of_le g4 hni, g5⟩

theorem noLoadSt_ensure (ops : List Op) (st : LoaderState) (u : String)
    (cb : Option Nat) (h : NoLoadSt ops st) :
    NoLoadSt (ops ++ [Op.ensure u cb]) (ensureBundle st u cb).2 := by
  obtain ⟨hev, hpend, hnone, hsome⟩ := h
  cases hbu : lookupA st.bundles u with
  | some b =>
    obtain ⟨hload, hcbs, hps, hlt, hret⟩ := hsome u b hbu
    cases cb with
    | some c =>
      rw [congrArg Prod.snd ((ensureBundle_existing st u b hbu hload).1 c)]
      refine ⟨hev, hpend, ?_, ?_⟩
      · intro url hurl
        rw [lookupA_setA] at hurl
        by_cases hq : url = u
        · rw [if_pos hq] at hurl
          cases hurl
        · rw [if_neg hq] at hurl
          obtain ⟨g1, g2⟩ := hnone url hurl
          refine ⟨?_, ?_⟩
          · rw [collectCbs_snoc_ensure_ne url u (some c) ops
              (fun hh => hq hh.symm)]
            exact g1
          · intro pr hpr
            rcases List.mem_append.mp hpr with hm | hm
            · exact g2 pr hm
            · rw [List.mem_singleton] at hm
              subst hm
              exact fun hh => hq hh.symm
      · intro url b' hb'
        rw [lookupA_setA] at hb'
        by_cases hq : url = u
        · subst hq
          rw [if_pos rfl] at hb'
          obtain rfl : { b with callbacks := b.callbacks ++ [c] } = b' :=
            Option.some.inj hb'
          refine ⟨hload, ?_, hps, hlt, ?_⟩
          · show b.callbacks ++ [c] = _
            rw [collectCbs_snoc_ensure_self url c ops, hcbs]
          · intro pr hpr hp1
            rcases List.mem_append.mp hpr with hm | hm
            · exact hret pr hm hp1
            · rw [List.mem_singleton] at hm
              subst hm
              rfl
        · rw [if_neg hq] at hb'
          obtain ⟨g1, g2, g3, g4, g5⟩ := hsome url b' hb'
          refine ⟨g1, ?_, g3, g4, ?_⟩
          · rw [collectCbs_snoc_ensure_ne url u (some c) ops
              (fun hh => hq hh.symm)]
            exact g2
          · intro pr hpr hp1
            rcases List.mem_append.mp hpr with hm | hm
            · exact g5 pr hm hp1
            · rw [List.mem_singleton] at hm
              subst hm
              exact absurd hp1.symm hq
    | none =>
      rw [congrArg Prod.snd (ensureBundle_existing st u b hbu hload).2]
      refine ⟨hev, hpend, ?_, ?_⟩
      · intro url hurl
        obtain ⟨g1, g2⟩ := hnone url hurl
        have hq : ¬url = u := fun hh => by
          rw [hh, hbu] at hurl
          cases hurl
        refine ⟨?_, ?_⟩
        · rw [collectCbs_snoc_ensure_ne url u none ops (fun hh => hq hh.symm)]
          exact g1
        · intro pr hpr
          rcases List.mem_append.mp hpr with hm | hm
          · exact g2 pr hm
          · rw [List.mem_singleton] at hm
            subst hm
            exact fun hh => hq hh.symm
      · intro url b' hb'
        obtain ⟨g1, g2, g3, g4, g5⟩ := hsome url b' hb'
        refine ⟨g1, ?_, g3, g4, ?_⟩
        · by_cases hq : u = url
          · subst hq
            rw [show collectCbs u (ops ++ [Op.ensure u none]) =
                collectCbs u ops from by
              rw [collectCbs_append u]
              exact List.append_nil _]
            exact g2
          · rw [collectCbs_snoc_ensure_ne url u none ops hq]
            exact g2
        · intro pr hpr hp1
          rcases List.mem_append.mp hpr with hm | hm
          · exact g5 pr hm hp1
          · rw [List.mem_singleton] at hm
            subst hm
            have : u = url := hp1
            subst this
            obtain rfl : b = b' := Option.some.inj (hbu.symm.trans hb')
            rfl
  | none =>
    obtain ⟨hc0, hr0⟩ := hnone u hbu
    cases cb with
    | some c =>
      rw [congrArg Prod.snd ((ensureBundle_fresh st u hbu).1 c)]
      refine ⟨hev, ?_, ?_, ?_⟩
      · intro q hq
        rcases List.mem_cons.mp hq with hm | hm
        · rw [hm]
        · exact hpend q hm
      · intro url hurl
        rw [lookupA_setA] at hurl
        by_cases hq : url = u
        · rw [if_pos hq] at hurl
          cases hurl
        · rw [if_neg hq, lookupA_setA, if_neg hq] at hurl
          obtain ⟨g1, g2⟩ := hnone url hurl
          refine ⟨?_, ?_⟩
          · rw [collectCbs_snoc_ensure_ne url u (some c) ops
              (fun hh => hq hh.symm)]
            exact g1
          · intro pr hpr
            rcases List.mem_append.mp hpr with hm | hm
            · exact g2 pr hm
            · rw [List.mem_singleton] at hm
              subst hm
              exact fun hh => hq hh.symm
      · intro url b' hb'
        rw [lookupA_setA] at hb'
        by_cases hq : url = u
        · subst hq
          rw [if_pos rfl] at hb'
          obtain rfl : (⟨false, [c], st.nextId⟩ : BundleRec) = b' :=
            Option.some.inj hb'
          refine ⟨rfl, ?_, ?_, Nat.lt_succ_self _, ?_⟩
          · show [c] = _
            rw [collectCbs_snoc_ensure_self url c ops, hc0, List.nil_append]
          · show (lookupA ((st.nextId, PromiseSt.pending) :: st.promises)
              st.nextId).isSome
            simp only [lookupA, if_pos rfl]
            rfl
          · intro pr hpr hp1
            rcases List.mem_append.mp hpr with hm | hm
            · exact absurd hp1 (hr0 pr hm)
            · rw [List.mem_singleton] at hm
              subst hm
              rfl
        · rw [if_neg hq, lookupA_setA, if_neg hq] at hb'
          obtain ⟨g1, g2, g3, g4, g5⟩ := hsome url b' hb'
          refine ⟨g1, ?_, ?_, Nat.lt_succ_of_lt g4, ?_⟩
          · rw [collectCbs_snoc_ensure_ne url u (some c) ops
              (fun hh => hq hh.symm)]
            exact g2
          · show (lookupA ((st.nextId, PromiseSt.pending) :: st.promises)
              b'.promiseId).isSome
            simp only [lookupA]
            rw [if_neg (Nat.ne_of_gt g4)]
            exact g3
          · intro pr hpr hp1
            rcases List.mem_append.mp hpr with hm | hm
            · exact g5 pr hm hp1
            · rw [List.mem_singleton] at hm
              subst hm
              exact absurd hp1.symm hq
    | none =>
      rw [congrArg Prod.snd (ensureBundle_fresh st u hbu).2]
      refine ⟨hev, ?_, ?_, ?_⟩
      · intro q hq
        rcases List.mem_cons.mp hq with hm | hm
        · rw [hm]
        · exact hpend q hm
      · intro url hurl
        rw [lookupA_setA] at hurl
        by_cases hq : url = u
        · rw [if_pos hq] at hurl
          cases hurl
        · rw [if_neg hq] at hurl
          obtain ⟨g1, g2⟩ := hnone url hurl
          refine ⟨?_, ?_⟩
          · rw [collectCbs_snoc_ensure_ne url u none ops
              (fun hh => hq hh.symm)]
            exact g1
          · intro pr hpr
            rcases List.mem_append.mp hpr with hm | hm
            · exact g2 pr hm
            · rw [List.mem_singleton] at hm
              subst hm
              exact fun hh => hq hh.symm
      · intro url b' hb'
        rw [lookupA_setA] at hb'
        by_cases hq : url = u
        · subst hq
          rw [if_pos rfl] at hb'
          obtain rfl : (⟨false, [], st.nextId⟩ : BundleRec) = b' :=
            Option.some.inj hb'
          refine ⟨rfl, ?_, ?_, Nat.lt_succ_self _, ?_⟩
          · show ([] : List Nat) = _
            rw [show collectCbs url (ops ++ [Op.ensure url none]) =
                collectCbs url ops from by
              rw [collectCbs_append url]
              exact List.append_nil _, hc0]
          · show (lookupA ((st.nextId, PromiseSt.pending) :: st.promises)
              st.nextId).isSome
            simp only [lookupA, if_pos rfl]
            rfl
          · intro pr hpr hp1
            rcases List.mem_append.mp hpr with hm | hm
            · exact absurd hp1 (hr0 pr hm)
            · rw [List.mem_singleton] at hm
              subst hm
              rfl
        · rw [if_neg hq] at hb'
          obtain ⟨g1, g2, g3, g4, g5⟩ := hsome url b' hb'
          refine ⟨g1, ?_, ?_, Nat.lt_succ_of_lt g4, ?_⟩
          · rw [collectCbs_snoc_ensure_ne url u none ops
              (fun hh => hq hh.symm)]
            exact g2
          · show (lookupA ((st.nextId, PromiseSt.pending) :: st.promises)
              b'.promiseId).isSome
            simp only [lookupA]
            rw [if_neg (Nat.ne_of_gt g4)]
            exact g3
          · intro pr hpr hp1
            rcases List.mem_append.mp hpr with hm | hm
            · exact g5 pr hm hp1
            · rw [List.mem_singleton] at hm
              subst hm
              exact absurd hp1.symm hq

theorem noLoad_runOps :
    ∀ (ops : List Op), (∀ u, Op.scriptLoad u ∉ ops) →
      (∀ u, Op.scriptError u ∉ ops) →
      NoLoadSt ops (runOps ops initState) := by
  intro ops
  induction ops using List.reverseRecOn with
  | nil =>
    intro _ _
    exact ⟨rfl, fun q hq => absurd hq (List.not_mem_nil q),
      fun url _ => ⟨rfl, fun pr hpr => absurd hpr (List.not_mem_nil pr)⟩,
      fun url b hb => by cases hb⟩
  | append_singleton ops op ih =>
    intro hL hE
    have IH := ih (fun u hu => hL u (List.mem_append_left _ hu))
      (fun u hu => hE u (List.mem_append_left _ hu))
    rw [runOps_append]
    show NoLoadSt (ops ++ [op]) (runOp (runOps ops initState) op)
    generalize hst : runOps ops initState = st at IH
    cases op with
    | define p f =>
      have hcb : ∀ url, collectCbs url (ops ++ [Op.define p f]) =
          collectCbs url ops :=
        fun url => collectCbs_snoc_other url _ ops (fun _ _ h => by cases h)
      by_cases hc : (lookupA st.registered p).isSome
      · rw [show runOp st (Op.define p f) =
            (if (lookupA st.registered p).isSome then st
              else { st with registered := st.registered ++ [(p, f)] })
          from rfl, if_pos hc]
        exact noLoadSt_of_fields ops _ st st rfl rfl rfl rfl (Nat.le_refl _)
          hcb IH
      · rw [show runOp st (Op.define p f) =
            (if (lookupA st.registered p).isSome then st
              else { st with registered := st.registered ++ [(p, f)] })
          from rfl, if_neg hc]
        exact noLoadSt_of_fields ops _ st _ rfl rfl rfl rfl (Nat.le_refl _)
          hcb IH
    | require p =>
      obtain ⟨_, hbu, hpr, hsi, hev, her, hni, _⟩ := runRequire_monoSt opFuel st p
      exact noLoadSt_of_fields ops _ st _ hev hpr hbu her hni
        (fun url => collectCbs_snoc_other url _ ops (fun _ _ h => by cases h))
        IH
    | ensure u cb => exact noLoadSt_ensure ops st u cb IH
    | scriptLoad u =>
      exact absurd (List.mem_append_right ops (List.mem_singleton.mpr rfl))
        (hL u)
    | scriptError u =>
      exact absurd (List.mem_append_right ops (List.mem_singleton.mpr rfl))
        (hE u)

theorem injected_count_op (st : LoaderState) (op : Op)
    (h : ∀ url, st.scriptsInjected.count url =
      if (lookupA st.bundles url).isSome then 1 else 0) :
    ∀ url, (runOp st op).scriptsInjected.count url =
      if (lookupA (runOp st op).bundles url).isSome then 1 else 0 := by
  cases op with
  | define p f =>
    intro url
    rw [show runOp st (Op.define p f) =
        (if (lookupA st.registered p).isSome then st
          else { st with registered := st.registered ++ [(p, f)] })
      from rfl]
    by_cases hc : (lookupA st.registered p).isSome
    · rw [if_pos hc]
      exact h url
    · rw [if_neg hc]
      exact h url
  | require p =>
    intro url
    obtain ⟨_, hbu, _, hsi, _, _, _, _⟩ := runRequire_monoSt opFuel st p
    show ((runRequire opFuel st p).2).scriptsInjected.count url =
      if (lookupA ((runRequire opFuel st p).2).bundles url).isSome then 1
      else 0
    rw [hsi, hbu]
    exact h url
  | ensure u cb =>
    intro url
    show ((ensureBundle st u cb).2).scriptsInjected.count url =
      if (lookupA ((ensureBundle st u cb).2).bundles url).isSome then 1 else 0
    cases hbu : lookupA st.bundles u with
    | some b =>
      cases hl : b.loaded with
      | true =>
        cases cb with
        | some c =>
          rw [congrArg Prod.snd ((ensureBundle_existing_loaded st u b hbu hl).1 c)]
          exact h url
        | none =>
          rw [congrArg Prod.snd (ensureBundle_existing_loaded st u b hbu hl).2]
          exact h url
      | false =>
        cases cb with
        | some c =>
          rw [congrArg Prod.snd ((ensureBundle_existing st u b hbu hl).1 c)]
          show st.scriptsInjected.count url =
            if (lookupA (setA st.bundles u
              { b with callbacks := b.callbacks ++ [c] }) url).isSome then 1
            else 0
          rw [h url]
          by_cases hq : url = u
          · subst hq
            rw [hbu, lookupA_setA_self]
            rfl
          · rw [lookupA_setA_ne _ _ _ _ hq]
        | none =>
          rw [congrArg Prod.snd (ensureBundle_existing st u b hbu hl).2]
          exact h url
    | none =>
      have hcnt : st.scriptsInjected.count u = 0 := by
        rw [h u, hbu]
        rfl
      cases cb with
      | some c =>
        rw [congrArg Prod.snd ((ensureBundle_fresh st u hbu).1 c)]
        show (st.scriptsInjected ++ [u]).count url =
          if (lookupA (setA (setA st.bundles u ⟨false, [], st.nextId⟩) u
            ⟨false, [c], st.nextId⟩) url).isSome then 1 else 0
        by_cases hq : url = u
        · subst hq
          rw [count_snoc_self, hcnt, lookupA_setA_self]
          rfl
        · rw [count_snoc_ne _ _ _ (fun hh => hq hh.symm), h url,
            lookupA_setA_ne _ _ _ _ hq, lookupA_setA_ne _ _ _ _ hq]
      | none =>
        rw [congrArg Prod.snd (ensureBundle_fresh st u hbu).2]
        show (st.scriptsInjected ++ [u]).count url =
          if (lookupA (setA st.bundles u ⟨false, [], st.nextId⟩) url).isSome
          then 1 else 0
        by_cases hq : url = u
        · subst hq
          rw [count_snoc_self, hcnt, lookupA_setA_self]
          rfl
        · rw [count_snoc_ne _ _ _ (fun hh => hq hh.symm), h url,
            lookupA_setA_ne _ _ _ _ hq]
  | scriptLoad u =>
    intro url
    show (scriptLoadEv st u).scriptsInjected.count url =
      if (lookupA ((scriptLoadEv st u)).bundles url).isSome then 1 else 0
    cases hbu : lookupA st.bundles u with
    | some b =>
      rw [scriptLoadEv_some st u b hbu]
      show st.scriptsInjected.count url =
        if (lookupA (setA st.bundles u
          { b with callbacks := [], loaded := true }) url).isSome then 1
        else 0
      rw [h url]
      by_cases hq : url = u
      · subst hq
        rw [hbu, lookupA_setA_self]
        rfl
      · rw [lookupA_setA_ne _ _ _ _ hq]
    | none =>
      rw [show scriptLoadEv st u = st from by
        unfold scriptLoadEv
        rw [hbu]]
      exact h url
  | scriptError u =>
    intro url
    show (scriptErrorEv st u).scriptsInjected.count url =
      if (lookupA ((scriptErrorEv st u)).bundles url).isSome then 1 else 0
    cases hbu : lookupA st.bundles u with
    | some b =>
      rw [scriptErrorEv_some st u b hbu]
      exact h url
    | none =>
      rw [show scriptErrorEv st u = st from by
        unfold scriptErrorEv
        rw [hbu]]
      exact h url

theorem injected_count : ∀ (ops : List Op) (st : LoaderState),
    (∀ url, st.scriptsInjected.count url =
      if (lookupA st.bundles url).isSome then 1 else 0) →
    ∀ url, (runOps ops st).scriptsInjected.count url =
      if (lookupA (runOps ops st).bundles url).isSome then 1 else 0
  | [], _, h => h
  | op :: ops, st, h =>
    injected_count ops (runOp st op) (injected_count_op st op h)

/-- Claim C5: bundle deduplication and FIFO waiter drain.  First
conjunct: over every operation sequence, at most one script element is
ever injected per url.  Second conjunct: for a url whose bundle exists
after a sequence of calls during which no script event has fired, the
pending record holds exactly the `ensureBundle` callbacks in call
order; when the single script's load event fires, the event log becomes
precisely those callbacks invoked in FIFO order (each exactly once)
followed by the resolution of the completion promise, the bundle is
flagged loaded with its waiter list emptied, and the promise returned by
every `ensureBundle` call for that url is the completion promise, now
resolved. -/
theorem C5_bundle_dedup :
    (∀ (ops : List Op) (url : String),
      (runOps ops initState).scriptsInjected.count url ≤ 1) ∧
    (∀ (ops : List Op) (url : String) (b : BundleRec),
      (∀ u, Op.scriptLoad u ∉ ops) → (∀ u, Op.scriptError u ∉ ops) →
      lookupA (runOps ops initState).bundles url = some b →
      b.callbacks = collectCbs url ops ∧
      (runOps (ops ++ [Op.scriptLoad url]) initState).evLog =
        (collectCbs url ops).map (LogEv.invoked url) ++
          [LogEv.promResolved b.promiseId] ∧
      lookupA (runOps (ops ++ [Op.scriptLoad url]) initState).bundles url =
        some ⟨true, [], b.promiseId⟩ ∧
      lookupA (runOps (ops ++ [Op.scriptLoad url]) initState).promises
        b.promiseId = some PromiseSt.resolved ∧
      (∀ pr ∈ (runOps ops initState).ensureReturns,
        pr.1 = url → pr.2 = b.promiseId)) := by
  constructor
  · intro ops url
    rw [injected_count ops initState (fun _ => rfl) url]
    by_cases hs : (lookupA (runOps ops initState).bundles url).isSome
    · rw [if_pos hs]
    · rw [if_neg hs]
      exact Nat.zero_le 1
  · intro ops url b hL hE hb
    obtain ⟨hev, hpend, _, hsome⟩ := noLoad_runOps ops hL hE
    obtain ⟨hload, hcbs, hps, hlt, hret⟩ := hsome url b hb
    have hpp : lookupA (runOps ops initState).promises b.promiseId =
        some PromiseSt.pending := by
      rcases Option.isSome_iff_exists.mp hps with ⟨v, hv⟩
      have hvp : v = PromiseSt.pending := hpend (b.promiseId, v) (lookupA_mem hv)
      rw [hv, hvp]
    have hstF : runOps (ops ++ [Op.scriptLoad url]) initState =
        scriptLoadEv (runOps ops initState) url := by
      rw [runOps_append]
      rfl
    rw [hstF, scriptLoadEv_some _ _ _ hb]
    refine ⟨hcbs, ?_, ?_, ?_, hret⟩
    · show (runOps ops initState).evLog ++
        b.callbacks.map (LogEv.invoked url) ++
          [LogEv.promResolved b.promiseId] = _
      rw [hev, hcbs, List.nil_append]
    · show lookupA (setA (runOps ops initState).bundles url
        { b with callbacks := [], loaded := true }) url = _
      rw [lookupA_setA_self]
    · show lookupA (settleProm (runOps ops initState).promises b.promiseId
        PromiseSt.resolved) b.promiseId = _
      exact lookupA_settleProm_self _ _ _ hpp

/-- Witness for C5: the S4 scenario — two `ensureBundle('x.js', ·)`
calls before the single script's load event. -/
theorem C5_bundle_dedup_witness :
    (runOps [Op.ensure "x.js" (some 0), Op.ensure "x.js" (some 1)]
      initState).scriptsInjected.count "x.js" ≤ 1 ∧
    ((⟨false, [0, 1], 0⟩ : BundleRec).callbacks =
      collectCbs "x.js" [Op.ensure "x.js" (some 0), Op.ensure "x.js" (some 1)] ∧
    (runOps ([Op.ensure "x.js" (some 0), Op.ensure "x.js" (some 1)] ++
        [Op.scriptLoad "x.js"]) initState).evLog =
      (collectCbs "x.js"
          [Op.ensure "x.js" (some 0), Op.ensure "x.js" (some 1)]).map
        (LogEv.invoked "x.js") ++ [LogEv.promResolved 0] ∧
    lookupA (runOps ([Op.ensure "x.js" (some 0), Op.ensure "x.js" (some 1)] ++
        [Op.scriptLoad "x.js"]) initState).bundles "x.js" =
      some ⟨true, [], 0⟩ ∧
    lookupA (runOps ([Op.ensure "x.js" (some 0), Op.ensure "x.js" (some 1)] ++
        [Op.scriptLoad "x.js"]) initState).promises 0 =
      some PromiseSt.resolved ∧
    (∀ pr ∈ (runOps [Op.ensure "x.js" (some 0), Op.ensure "x.js" (some 1)]
        initState).ensureReturns, pr.1 = "x.js" → pr.2 = 0)) :=
  ⟨C5_bundle_dedup.1 [Op.ensure "x.js" (some 0), Op.ensure "x.js" (some 1)]
      "x.js",
    C5_bundle_dedup.2 [Op.ensure "x.js" (some 0), Op.ensure "x.js" (some 1)]
      "x.js" ⟨false, [0, 1], 0⟩
      (by intro u h; simp at h) (by intro u h; simp at h) (by rfl)⟩

theorem rejected_step (st : LoaderState) (url : String) (cbs : List Nat)
    (pid : Nat) (op : Op) (hnl : op ≠ Op.scriptLoad url)
    (hb : lookupA st.bundles url = some ⟨false, cbs, pid⟩)
    (hp : lookupA st.promises pid = some PromiseSt.rejected)
    (hn : pid < st.nextId) :
    ∃ cbs', lookupA (runOp st op).bundles url = some ⟨false, cbs', pid⟩ ∧
      lookupA (runOp st op).promises pid = some PromiseSt.rejected ∧
      pid < (runOp st op).nextId ∧
      (∃ d, (runOp st op).evLog = st.evLog ++ d ∧
        ∀ c, LogEv.invoked url c ∉ d) ∧
      (∃ d, (runOp st op).ensureReturns = st.ensureReturns ++ d ∧
        ∀ pr ∈ d, pr.1 = url → pr.2 = pid) ∧
      (runOp st op).scriptsInjected.count url =
        st.scriptsInjected.count url := by
  have hno : ∀ c, LogEv.invoked url c ∉ ([] : List LogEv) :=
    fun c hc => absurd hc (List.not_mem_nil _)
  have hnr : ∀ pr ∈ ([] : List (String × Nat)), pr.1 = url → pr.2 = pid :=
    fun pr hpr => absurd hpr (List.not_mem_nil _)
  cases op with
  | define p f =>
    rw [show runOp st (Op.define p f) =
        (if (lookupA st.registered p).isSome then st
          else { st with registered := st.registered ++ [(p, f)] })
      from rfl]
    by_cases hc : (lookupA st.registered p).isSome
    · rw [if_pos hc]
      exact ⟨cbs, hb, hp, hn, ⟨[], (List.append_nil _).symm, hno⟩,
        ⟨[], (List.append_nil _).symm, hnr⟩, rfl⟩
    · rw [if_neg hc]
      exact ⟨cbs, hb, hp, hn, ⟨[], (List.append_nil _).symm, hno⟩,
        ⟨[], (List.append_nil _).symm, hnr⟩, rfl⟩
  | require p =>
    obtain ⟨_, hbu, hpr, hsi, hev, her, hni, _⟩ := runRequire_monoSt opFuel st p
    show ∃ cbs', lookupA ((runRequire opFuel st p).2).bundles url = _ ∧
      lookupA ((runRequire opFuel st p).2).promises pid = _ ∧
      pid < ((runRequire opFuel st p).2).nextId ∧
      (∃ d, ((runRequire opFuel st p).2).evLog = st.evLog ++ d ∧
        ∀ c, LogEv.invoked url c ∉ d) ∧
      (∃ d, ((runRequire opFuel st p).2).ensureReturns =
        st.ensureReturns ++ d ∧ ∀ pr ∈ d, pr.1 = url → pr.2 = pid) ∧
      ((runRequire opFuel st p).2).scriptsInjected.count url =
        st.scriptsInjected.count url
    rw [hbu, hpr, hsi, hev, her]
    exact ⟨cbs, hb, hp, Nat.lt_of_lt_of_le hn hni,
      ⟨[], (List.append_nil _).symm, hno⟩,
      ⟨[], (List.append_nil _).symm, hnr⟩, rfl⟩
  | ensure u cb =>
    show ∃ cbs', lookupA ((ensureBundle st u cb).2).bundles url = _ ∧
      lookupA ((ensureBundle st u cb).2).promises pid = _ ∧
      pid < ((ensureBundle st u cb).2).nextId ∧
      (∃ d, ((ensureBundle st u cb).2).evLog = st.evLog ++ d ∧
        ∀ c, LogEv.invoked url c ∉ d) ∧
      (∃ d, ((ensureBundle st u cb).2).ensureReturns =
        st.ensureReturns ++ d ∧ ∀ pr ∈ d, pr.1 = url → pr.2 = pid) ∧
      ((ensureBundle st u cb).2).scriptsInjected.count url =
        st.scriptsInjected.count url
    by_cases hq : u = url
    · subst hq
      have hret1 : ∀ pr ∈ [(u, pid)], pr.1 = u → pr.2 = pid := by
        intro pr hpr _
        rw [List.mem_singleton] at hpr
        subst hpr
        rfl
      cases cb with
      | some c =>
        rw [congrArg Prod.snd ((ensureBundle_existing st u ⟨false, cbs, pid⟩
          hb rfl).1 c)]
        exact ⟨cbs ++ [c], by rw [lookupA_setA_self], hp, hn,
          ⟨[], (List.append_nil _).symm, hno⟩, ⟨[(u, pid)], rfl, hret1⟩, rfl⟩
      | none =>
        rw [congrArg Prod.snd (ensureBundle_existing st u ⟨false, cbs, pid⟩
          hb rfl).2]
        exact ⟨cbs, hb, hp, hn, ⟨[], (List.append_nil _).symm, hno⟩,
          ⟨[(u, pid)], rfl, hret1⟩, rfl⟩
    · have hret2 : ∀ (x : Nat), ∀ pr ∈ [(u, x)], pr.1 = url → pr.2 = pid := by
        intro x pr hpr hp1
        rw [List.mem_singleton] at hpr
        subst hpr
        exact absurd hp1 hq
      cases hbu : lookupA st.bundles u with
      | some b' =>
        cases hl : b'.loaded with
        | true =>
          have hpid : ¬st.nextId = pid := fun hh => Nat.lt_irrefl _ (hh ▸ hn)
          cases cb with
          | some c =>
            rw [congrArg Prod.snd
              ((ensureBundle_existing_loaded st u b' hbu hl).1 c)]
            refine ⟨cbs, hb, ?_, Nat.lt_succ_of_lt hn,
              ⟨[LogEv.invoked u c], rfl, ?_⟩,
              ⟨[(u, st.nextId)], rfl, hret2 _⟩, rfl⟩
            · show (if st.nextId = pid then some PromiseSt.resolved
                else lookupA st.promises pid) = some PromiseSt.rejected
              rw [if_neg hpid]
              exact hp
            · intro c' hc'
              rw [List.mem_singleton] at hc'
              cases hc'
              exact hq rfl
          | none =>
            rw [congrArg Prod.snd
              (ensureBundle_existing_loaded st u b' hbu hl).2]
            refine ⟨cbs, hb, ?_, Nat.lt_succ_of_lt hn,
              ⟨[], (List.append_nil _).symm, hno⟩,
              ⟨[(u, st.nextId)], rfl, hret2 _⟩, rfl⟩
            show (if st.nextId = pid then some PromiseSt.resolved
              else lookupA st.promises pid) = some PromiseSt.rejected
            rw [if_neg hpid]
            exact hp
        | false =>
          cases cb with
          | some c =>
            rw [congrArg Prod.snd ((ensureBundle_existing st u b' hbu hl).1 c)]
            have hbs : lookupA (setA st.bundles u
                { b' with callbacks := b'.callbacks ++ [c] }) url =
                some ⟨false, cbs, pid⟩ := by
              rw [lookupA_setA_ne _ _ _ _ (fun hh => hq hh.symm)]
              exact hb
            exact ⟨cbs, hbs, hp, hn,
              ⟨[], (List.append_nil _).symm, hno⟩,
              ⟨[(u, b'.promiseId)], rfl, hret2 _⟩, rfl⟩
          | none =>
            rw [congrArg Prod.snd (ensureBundle_existing st u b' hbu hl).2]
            exact ⟨cbs, hb, hp, hn, ⟨[], (List.append_nil _).symm, hno⟩,
              ⟨[(u, b'.promiseId)], rfl, hret2 _⟩, rfl⟩
      | none =>
        have hpid : ¬st.nextId = pid := fun hh => Nat.lt_irrefl _ (hh ▸ hn)
        have hplook : (if st.nextId = pid then some PromiseSt.pending
            else lookupA st.promises pid) = some PromiseSt.rejected := by
          rw [if_neg hpid]
          exact hp
        cases cb with
        | some c =>
          rw [congrArg Prod.snd ((ensureBundle_fresh st u hbu).1 c)]
          have hbs : lookupA (setA (setA st.bundles u ⟨false, [], st.nextId⟩)
              u ⟨false, [c], st.nextId⟩) url = some ⟨false, cbs, pid⟩ := by
            rw [lookupA_setA_ne _ _ _ _ (fun hh => hq hh.symm),
              lookupA_setA_ne _ _ _ _ (fun hh => hq hh.symm)]
            exact hb
          exact ⟨cbs, hbs, hplook, Nat.lt_succ_of_lt hn,
            ⟨[], (List.append_nil _).symm, hno⟩,
            ⟨[(u, st.nextId)], rfl, hret2 _⟩,
            count_snoc_ne _ _ _ hq⟩
        | none =>
          rw [congrArg Prod.snd (ensureBundle_fresh st u hbu).2]
          have hbs : lookupA (setA st.bundles u ⟨false, [], st.nextId⟩) url =
              some ⟨false, cbs, pid⟩ := by
            rw [lookupA_setA_ne _ _ _ _ (fun hh => hq hh.symm)]
            exact hb
          exact ⟨cbs, hbs, hplook, Nat.lt_succ_of_lt hn,
            ⟨[], (List.append_nil _).symm, hno⟩,
            ⟨[(u, st.nextId)], rfl, hret2 _⟩,
            count_snoc_ne _ _ _ hq⟩
  | scriptLoad u =>
    have hq : u ≠ url := fun hh => hnl (by rw [hh])
    show ∃ cbs', lookupA (scriptLoadEv st u).bundles url = _ ∧
      lookupA (scriptLoadEv st u).promises pid = _ ∧
      pid < (scriptLoadEv st u).nextId ∧
      (∃ d, (scriptLoadEv st u).evLog = st.evLog ++ d ∧
        ∀ c, LogEv.invoked url c ∉ d) ∧
      (∃ d, (scriptLoadEv st u).ensureReturns = st.ensureReturns ++ d ∧
        ∀ pr ∈ d, pr.1 = url → pr.2 = pid) ∧
      (scriptLoadEv st u).scriptsInjected.count url =
        st.scriptsInjected.count url
    cases hbu : lookupA st.bundles u with
    | some b' =>
      rw [scriptLoadEv_some st u b' hbu]
      have hbs : lookupA (setA st.bundles u
          { b' with callbacks := [], loaded := true }) url =
          some ⟨false, cbs, pid⟩ := by
        rw [lookupA_setA_ne _ _ _ _ (fun hh => hq hh.symm)]
        exact hb
      refine ⟨cbs, hbs,
        lookupA_settleProm_rejected _ _ _ _ hp, hn,
        ⟨b'.callbacks.map (LogEv.invoked u) ++ [LogEv.promResolved b'.promiseId],
          List.append_assoc _ _ _, ?_⟩,
        ⟨[], (List.append_nil _).symm, hnr⟩, rfl⟩
      intro c hc
      rcases List.mem_append.mp hc with hm | hm
      · rcases List.mem_map.mp hm with ⟨x, _, hx⟩
        cases hx
        exact hq rfl
      · rw [List.mem_singleton] at hm
        cases hm
    | none =>
      rw [show scriptLoadEv st u = st from by
        unfold scriptLoadEv
        rw [hbu]]
      exact ⟨cbs, hb, hp, hn, ⟨[], (List.append_nil _).symm, hno⟩,
        ⟨[], (List.append_nil _).symm, hnr⟩, rfl⟩
  | scriptError u =>
    show ∃ cbs', lookupA (scriptErrorEv st u).bundles url = _ ∧
      lookupA (scriptErrorEv st u).promises pid = _ ∧
      pid < (scriptErrorEv st u).nextId ∧
      (∃ d, (scriptErrorEv st u).evLog = st.evLog ++ d ∧
        ∀ c, LogEv.invoked url c ∉ d) ∧
      (∃ d, (scriptErrorEv st u).ensureReturns = st.ensureReturns ++ d ∧
        ∀ pr ∈ d, pr.1 = url → pr.2 = pid) ∧
      (scriptErrorEv st u).scriptsInjected.count url =
        st.scriptsInjected.count url
    cases hbu : lookupA st.bundles u with
    | some b' =>
      rw [scriptErrorEv_some st u b' hbu]
      refine ⟨cbs, hb, lookupA_settleProm_rejected _ _ _ _ hp, hn,
        ⟨[LogEv.promRejected b'.promiseId], rfl, ?_⟩,
        ⟨[], (List.append_nil _).symm, hnr⟩, rfl⟩
      intro c hc
      rw [List.mem_singleton] at hc
      cases hc
    | none =>
      rw [show scriptErrorEv st u = st from by
        unfold scriptErrorEv
        rw [hbu]]
      exact ⟨cbs, hb, hp, hn, ⟨[], (List.append_nil _).symm, hno⟩,
        ⟨[], (List.append_nil _).symm, hnr⟩, rfl⟩

theorem rejected_sticky :
    ∀ (post : List Op) (st : LoaderState) (url : String) (cbs : List Nat)
      (pid : Nat), Op.scriptLoad url ∉ post →
      lookupA st.bundles url = some ⟨false, cbs, pid⟩ →
      lookupA st.promises pid = some PromiseSt.rejected →
      pid < st.nextId →
      ∃ cbs', lookupA (runOps post st).bundles url = some ⟨false, cbs', pid⟩ ∧
        lookupA (runOps post st).promises pid = some PromiseSt.rejected ∧
        (∃ d, (runOps post st).evLog = st.evLog ++ d ∧
          ∀ c, LogEv.invoked url c ∉ d) ∧
        (∃ d, (runOps post st).ensureReturns = st.ensureReturns ++ d ∧
          ∀ pr ∈ d, pr.1 = url → pr.2 = pid) ∧
        (runOps post st).scriptsInjected.count url =
          st.scriptsInjected.count url
  | [], st, url, cbs, pid, _, hb, hp, _ =>
    ⟨cbs, hb, hp, ⟨[], (List.append_nil _).symm,
        fun c hc => absurd hc (List.not_mem_nil _)⟩,
      ⟨[], (List.append_nil _).symm,
        fun pr hpr => absurd hpr (List.not_mem_nil _)⟩, rfl⟩
  | op :: post, st, url, cbs, pid, hnl, hb, hp, hn => by
    obtain ⟨cbs1, hb1, hp1, hn1, ⟨d1, hd1, hnd1⟩, ⟨e1, he1, hne1⟩, hc1⟩ :=
      rejected_step st url cbs pid op
        (fun hh => hnl (hh ▸ List.mem_cons_self _ _)) hb hp hn
    obtain ⟨cbs2, hb2, hp2, ⟨d2, hd2, hnd2⟩, ⟨e2, he2, hne2⟩, hc2⟩ :=
      rejected_sticky post (runOp st op) url cbs1 pid
        (fun hh => hnl (List.mem_cons_of_mem _ hh)) hb1 hp1 hn1
    refine ⟨cbs2, hb2, hp2, ⟨d1 ++ d2, ?_, ?_⟩, ⟨e1 ++ e2, ?_, ?_⟩, ?_⟩
    · rw [show runOps (op :: post) st = runOps post (runOp st op) from rfl,
        hd2, hd1, List.append_assoc]
    · intro c hc
      rcases List.mem_append.mp hc with hm | hm
      · exact hnd1 c hm
      · exact hnd2 c hm
    · rw [show runOps (op :: post) st = runOps post (runOp st op) from rfl,
        he2, he1, List.append_assoc]
    · intro pr hpr hpu
      rcases List.mem_append.mp hpr with hm | hm
      · exact hne1 pr hm hpu
      · exact hne2 pr hm hpu
    · rw [show runOps (op :: post) st = runOps post (runOp st op) from rfl,
        hc2, hc1]

/-- Claim C6: a failed bundle is terminal.  After the script error event
for a url whose bundle was created and not yet settled, the completion
promise is rejected and stays rejected across arbitrary further
operations (that do not fire a load event for that url): the bundle
entry survives with the same completion promise and `loaded` still
false, none of its waiter callbacks is ever invoked, every `ensureBundle`
call for that url — before or after the failure — returned that same
(now rejected) promise, and exactly one script was ever injected for the
url. -/
theorem C6_failed_terminal :
    ∀ (pre post : List Op) (url : String) (b : BundleRec),
      (∀ u, Op.scriptLoad u ∉ pre) →
      (∀ u, Op.scriptError u ∉ pre) →
      Op.scriptLoad url ∉ post →
      lookupA (runOps pre initState).bundles url = some b →
      lookupA (runOps (pre ++ Op.scriptError url :: post) initState).promises
          b.promiseId = some PromiseSt.rejected ∧
      (∃ cbs', lookupA (runOps (pre ++ Op.scriptError url :: post)
          initState).bundles url = some ⟨false, cbs', b.promiseId⟩) ∧
      (∀ c, LogEv.invoked url c ∉
        (runOps (pre ++ Op.scriptError url :: post) initState).evLog) ∧
      (∀ pr ∈ (runOps (pre ++ Op.scriptError url :: post)
          initState).ensureReturns, pr.1 = url → pr.2 = b.promiseId) ∧
      (runOps (pre ++ Op.scriptError url :: post)
          initState).scriptsInjected.count url = 1 := by
  intro pre post url b hL hE hpost hb
  obtain ⟨hev, hpend, _, hsome⟩ := noLoad_runOps pre hL hE
  obtain ⟨hload, hcbs, hps, hlt, hret⟩ := hsome url b hb
  have hpp : lookupA (runOps pre initState).promises b.promiseId =
      some PromiseSt.pending := by
    rcases Option.isSome_iff_exists.mp hps with ⟨v, hv⟩
    have hvp : v = PromiseSt.pending := hpend (b.promiseId, v) (lookupA_mem hv)
    rw [hv, hvp]
  have hbe : b = ⟨false, b.callbacks, b.promiseId⟩ := by
    rw [← hload]
  have hEq : runOps (pre ++ Op.scriptError url :: post) initState =
      runOps post (scriptErrorEv (runOps pre initState) url) := by
    rw [runOps_append]
    rfl
  have hse := scriptErrorEv_some (runOps pre initState) url b hb
  have hbE : lookupA (scriptErrorEv (runOps pre initState) url).bundles url =
      some ⟨false, b.callbacks, b.promiseId⟩ := by
    rw [hse]
    show lookupA (runOps pre initState).bundles url = _
    rw [hb]
    exact congrArg some hbe
  have hpE : lookupA (scriptErrorEv (runOps pre initState) url).promises
      b.promiseId = some PromiseSt.rejected := by
    rw [hse]
    exact lookupA_settleProm_self _ _ _ hpp
  have hnE : b.promiseId < (scriptErrorEv (runOps pre initState) url).nextId := by
    rw [hse]
    exact hlt
  obtain ⟨cbs', hb', hp', ⟨d, hd, hnd⟩, ⟨e, he, hne⟩, hcnt⟩ :=
    rejected_sticky post (scriptErrorEv (runOps pre initState) url) url
      b.callbacks b.promiseId hpost hbE hpE hnE
  refine ⟨?_, ⟨cbs', ?_⟩, ?_, ?_, ?_⟩
  · rw [hEq]
    exact hp'
  · rw [hEq]
    exact hb'
  · intro c
    rw [hEq, hd, hse]
    show LogEv.invoked url c ∉
      (runOps pre initState).evLog ++ [LogEv.promRejected b.promiseId] ++ d
    rw [hev, List.nil_append]
    intro hc
    rcases List.mem_append.mp hc with hm | hm
    · rw [List.mem_singleton] at hm
      cases hm
    · exact hnd c hm
  · intro pr hpr hp1
    rw [hEq, he, hse] at hpr
    have hpr' : pr ∈ (runOps pre initState).ensureReturns ++ e := hpr
    rcases List.mem_append.mp hpr' with hm | hm
    · exact hret pr hm hp1
    · exact hne pr hm hp1
  · rw [hEq, hcnt, hse]
    show (runOps pre initState).scriptsInjected.count url = 1
    rw [injected_count pre initState (fun _ => rfl) url, hb]
    rfl

/-- Witness for C6: `ensureBundle('x.js', 0)`, the script error event,
then a later `ensureBundle('x.js', 1)`. -/
theorem C6_failed_terminal_witness :
    lookupA (runOps ([Op.ensure "x.js" (some 0)] ++ Op.scriptError "x.js" ::
        [Op.ensure "x.js" (some 1)]) initState).promises
      (⟨false, [0], 0⟩ : BundleRec).promiseId = some PromiseSt.rejected ∧
    (∃ cbs', lookupA (runOps ([Op.ensure "x.js" (some 0)] ++
        Op.scriptError "x.js" :: [Op.ensure "x.js" (some 1)])
        initState).bundles "x.js" = some ⟨false, cbs', 0⟩) ∧
    (∀ c, LogEv.invoked "x.js" c ∉
      (runOps ([Op.ensure "x.js" (some 0)] ++ Op.scriptError "x.js" ::
        [Op.ensure "x.js" (some 1)]) initState).evLog) ∧
    (∀ pr ∈ (runOps ([Op.ensure "x.js" (some 0)] ++ Op.scriptError "x.js" ::
        [Op.ensure "x.js" (some 1)]) initState).ensureReturns,
      pr.1 = "x.js" → pr.2 = 0) ∧
    (runOps ([Op.ensure "x.js" (some 0)] ++ Op.scriptError "x.js" ::
        [Op.ensure "x.js" (some 1)]) initState).scriptsInjected.count
      "x.js" = 1 :=
  C6_failed_terminal [Op.ensure "x.js" (some 0)] [Op.ensure "x.js" (some 1)]
    "x.js" ⟨false, [0], 0⟩ (by intro u h; simp at h) (by intro u h; simp at h)
    (by decide) (by rfl)

end ExtensionBuilder
